import Mathlib

/-!
Verification of the parsing and job-control engine of myshell: a shallow embedding of
`src/myshell.c`.

Modelling conventions.

* A C string is the list of the characters that precede its terminating NUL (`CStr`).
  A pointer into the line buffer is the string that starts there; the in-place writes
  `*tok = 0` of the parser cut the string at that index (`List.take`), and `tok + 1`
  is the rest (`List.drop`).
* The only reads outside the current string are `*(ptr_out - 1)` when `>` is the first
  character of a segment, and the pointer comparison `tok_bg == input`. The first is
  served by passing the byte stored just before the segment (`prev`), the second by
  carrying the offset of `str_bg` in the line.
* `siglongjmp(sigint_env, 1)` is the result `Parsed.jump` carrying the globals at the
  time of the jump; a NULL dereference or a copy with a negative length is `crash`.
* Everything the process does to the outside world is appended to `ShellState.trace`.
* What the outside world answers (`pipe`, `fork`, uninitialised heap memory, the byte
  before the line buffer) is read from `Env`.
* `pid_t` and `int` values are `Int`; array indices and counts that never go below zero
  are `Nat`. The counters are reset by `cleanup` at every line, so 32-bit wrap-around
  is out of reach.
-/

namespace MyShell

/-- A C string without its terminating NUL. -/
abbrev CStr := List Char

/-! ## Data model -/

/-- The struct `cmd_st`: one pipeline stage. A NULL pointer is `none`, no descriptor is `0`. -/
structure cmd_st where
  args : Option (List CStr)
  pipe_fd_r : Int
  pipe_fd_w : Int
  file_in : Option CStr
  file_out : Option CStr
  file_err : Option CStr
  pgid : Int
deriving DecidableEq, Repr

/-- The descriptor after the seven assignments of NULL that the parser uses to initialise
a slot of `cmd_buf`. -/
def cmd_st.blank : cmd_st :=
  { args := none, pipe_fd_r := 0, pipe_fd_w := 0,
    file_in := none, file_out := none, file_err := none, pgid := 0 }

/-- Observable actions of the shell process, in the order they are performed. -/
inductive Event where
  | print (s : String)
  | perror (s : String)
  | pipe (r w : Int)
  | fork (i : Nat) (pid : Int)
  | close (fd : Int)
  | waitpid (pid : Int)
  | chdir (dir : Option CStr)
  | kill (pid : Int)
deriving DecidableEq, Repr

/-- The constant `CHILD_MAX`. -/
def CHILD_MAX : Nat := 1024

/-- The global variables of the program, the trace of actions and the number of calls
made so far to `pipe` and `fork`. -/
structure ShellState where
  cmd_buf : List cmd_st
  cmd_num : Nat
  pgid_counter : Int
  pgid_curr : Int
  pid_buf : List Int
  pid_idx : Nat
  trace : List Event
  pipes : Nat
  forks : Nat
deriving DecidableEq, Repr

/-- What the environment answers. -/
structure Env where
  /-- the byte stored just before the line buffer -/
  pre : Char
  /-- the contents of slot `i` of `cmd_buf` when it has been allocated and not written -/
  junk : Nat → cmd_st
  /-- the values left in `fd[0]`, `fd[1]` by the `k`-th call of `pipe` -/
  pipeFd : Nat → Int × Int
  /-- the value returned by the `k`-th call of `fork` in the shell process -/
  forkRet : Nat → Int
  /-- the pid of the shell -/
  shellPid : Int
  /-- the answer of `isatty(0)` -/
  tty : Bool

/-- The messages of the parser. -/
inductive ParseError where
  | syntaxError
  | duplicateRedirect
  | missingCommand
  | missingInputFile
  | missingOutputFile
  | unexpectedAmp
  | unexpectedPipe
  | fault
deriving DecidableEq, Repr

/-- The text printed for each error (nothing is printed by a fault). -/
def ParseError.message : ParseError → String
  | .syntaxError => "myshell: syntax error\n"
  | .duplicateRedirect =>
      "myshell: syntax error: there may only be one of each redirection character\n"
  | .missingCommand => "myshell: syntax error: missing command\n"
  | .missingInputFile => "myshell: syntax error: missing input file\n"
  | .missingOutputFile => "myshell: syntax error: missing output file\n"
  | .unexpectedAmp => "myshell: syntax error near unexpected token \x60&\x60\n"
  | .unexpectedPipe => "myshell: syntax error near unexpected token \x60|\x60\n"
  | .fault => ""

deriving instance DecidableEq for Except

/-- The result of a parsing function: normal return, `siglongjmp`, or a crash. The loops
are iterated under a bound on the number of iterations; `fuel` is the bound exhausted, which
does not happen with the bounds given by `parsePipe` and `parseInput`. -/
inductive Parsed where
  | ok (st : ShellState)
  | jump (st : ShellState)
  | crash (st : ShellState)
  | fuel (st : ShellState)
deriving DecidableEq, Repr

/-! ## Characters and strings -/

/-- The function `isspace` of the C locale. -/
def isspace (c : Char) : Bool :=
  c = ' ' || c = '\t' || c = '\n' || c = '\x0b' || c = '\x0c' || c = '\r'

/-- Membership in `DELIM`, the string `" \t\r\n\a"`. -/
def isDelim (c : Char) : Bool :=
  c = ' ' || c = '\t' || c = '\r' || c = '\n' || c = '\x07'

/-- The function `trimWhitespace`: advance the pointer over leading white space. -/
def trimWhitespace (str : CStr) : CStr :=
  str.dropWhile isspace

/-- The call `strstr(s, "c")` for a one-character needle: the index of the first `c`. -/
def strstr (s : CStr) (c : Char) : Option Nat :=
  if c ∈ s then some (s.indexOf c) else none

/-- One call of `strtok` with `DELIM` on the string at the saved position: the token and
the string at the new saved position. -/
def strtok (s : CStr) : Option (CStr × CStr) :=
  let s1 := s.dropWhile isDelim
  if s1 = [] then none
  else some (s1.takeWhile (fun c => !isDelim c), (s1.dropWhile (fun c => !isDelim c)).drop 1)

/-- The loop of `split`. -/
def splitLoop : Nat → CStr → List CStr
  | 0, _ => []
  | fuel + 1, s =>
    match strtok s with
    | none => []
    | some (tok, rest) => tok :: splitLoop fuel rest

/-- The function `split`: the tokens stored before the terminating NULL entry. Every
iteration consumes a character, so `input.length + 1` iterations are enough. -/
def split (input : CStr) : List CStr :=
  splitLoop (input.length + 1) input

/-- The maximal runs of non-delimiter characters of a line, in order. -/
def tokens (line : CStr) : List CStr :=
  (line.splitOnP isDelim).filter (fun t => !t.isEmpty)

/-! ## parseRedirect -/

/-- The `switch (*(ptr_out - 1))`: the value given to `stdout_ctl` and whether `ptr_out`
is decremented. -/
def stdoutSwitch (c : Char) : Nat × Bool :=
  if c = '1' then (1, true)
  else if c = '2' then (2, true)
  else if c = '&' then (3, true)
  else (1, false)

/-- The byte `*(p - 1)` for the pointer `p` at index `i` of the segment `s`. -/
def byteBefore (prev : Char) (s : CStr) (i : Nat) : Char :=
  if i = 0 then prev else s.getD (i - 1) '\x00'

/-- The local variables of `parseRedirect` after the five-way case distinction. -/
structure Spans where
  cmd_len : Int
  in_len : Int
  out_len : Int
  start_in : Nat
  start_out : Nat
  stdout_ctl : Nat
deriving DecidableEq, Repr

/-- The five-way case distinction of `parseRedirect` on `ptr_in` and `ptr_out`. Locals that
a branch leaves unassigned are never read afterwards and are given as `0`. -/
def spans (prev : Char) (s : CStr) (ptr_in ptr_out : Option Nat) : Spans :=
  let len : Int := s.length
  let inOnly (i : Nat) : Spans :=
    { cmd_len := i, in_len := len - (i + 1), out_len := 0,
      start_in := i + 1, start_out := 0, stdout_ctl := 0 }
  match ptr_in, ptr_out with
  | some i, some o =>
    let sw := stdoutSwitch (byteBefore prev s o)
    let o1 : Int := if sw.2 then (o : Int) - 1 else o
    if i < o then
      { cmd_len := i, out_len := len - (o + 1), start_out := o + 1, start_in := i + 1,
        stdout_ctl := sw.1, in_len := o1 - 1 - i }
    else if o < i then
      { in_len := len - (i + 1), start_in := i + 1, out_len := (i : Int) - (o + 1),
        start_out := o + 1, stdout_ctl := sw.1, cmd_len := o1 }
    else inOnly i
  | some i, none => inOnly i
  | none, some o =>
    let sw := stdoutSwitch (byteBefore prev s o)
    let o1 : Int := if sw.2 then (o : Int) - 1 else o
    { out_len := len - (o + 1), start_out := o + 1, stdout_ctl := sw.1, cmd_len := o1,
      in_len := 0, start_in := 0 }
  | none, none =>
    { cmd_len := len, in_len := 0, out_len := 0, start_in := 0, start_out := 0,
      stdout_ctl := 0 }

/-- The file name stored for a redirection: `strncpy` of `len` characters from `start`,
one trailing space replaced by NUL, then `trimWhitespace`. -/
def fileName (s : CStr) (start : Nat) (len : Int) : CStr :=
  let raw := (s.drop start).take len.toNat
  trimWhitespace (if raw.getLast? = some ' ' then raw.dropLast else raw)

/-- The function `parseRedirect` on the descriptor `command`. `prev` is the byte stored
just before the segment. The descriptor is written only after every check has passed, so an
error returns no descriptor: the one in the queue is left as it was. -/
def parseRedirect (prev : Char) (str_redirect : CStr) (command : cmd_st) :
    Except ParseError cmd_st :=
  if str_redirect = [] then .error .syntaxError
  else
    let ptr_in := strstr str_redirect '<'
    let ptr_out := strstr str_redirect '>'
    let again (p : Option Nat) (c : Char) : Bool :=
      match p with
      | some i => (strstr (str_redirect.drop (i + 1)) c).isSome
      | none => false
    if again ptr_in '<' || again ptr_out '>' then .error .duplicateRedirect
    else
      let v := spans prev str_redirect ptr_in ptr_out
      if v.cmd_len = 0 then .error .missingCommand
      else if ptr_in.isSome && v.in_len = 0 then .error .missingInputFile
      else if ptr_out.isSome && v.out_len = 0 then .error .missingOutputFile
      else if v.cmd_len < 0 then .error .fault
      else
        let c1 := { command with args := some (split (str_redirect.take v.cmd_len.toNat)) }
        let c2 :=
          if ptr_in.isSome then
            { c1 with file_in := some (fileName str_redirect v.start_in v.in_len) }
          else c1
        let name := fileName str_redirect v.start_out v.out_len
        let c3 :=
          if ptr_out.isSome then
            if v.stdout_ctl = 1 then { c2 with file_out := some name }
            else if v.stdout_ctl = 2 then { c2 with file_err := some name }
            else if v.stdout_ctl = 3 then { c2 with file_out := some name, file_err := some name }
            else c2
          else c2
        .ok c3

/-! ## The command queue -/

/-- The call `realloc(cmd_buf, n * sizeof(cmd_st))`: the first `n` slots are kept, a slot that
did not exist before holds whatever the heap holds there. -/
def realloc (junk : Nat → cmd_st) (buf : List cmd_st) (n : Nat) : List cmd_st :=
  buf.take n ++ (List.range' buf.length (n - buf.length)).map junk

/-- The slot `cmd_buf[i]`. -/
def slot (env : Env) (st : ShellState) (i : Nat) : cmd_st :=
  st.cmd_buf.getD i (env.junk i)

/-- The statement `printf(msg); siglongjmp(sigint_env, 1);` of the parser; a fault ends the
process instead. -/
def raise (e : ParseError) (st : ShellState) : Parsed :=
  if e = .fault then .crash st
  else .jump { st with trace := st.trace ++ [.print e.message] }

/-! ## parsePipe -/

/-- The do-while loop of `parsePipe`. `prev` is the byte before `str_pipe`. An iteration
that finds no pipe is the last one; one that finds a pipe continues behind it. -/
def pipeLoop (env : Env) (pgid : Int) : Nat → Char → CStr → ShellState → Parsed
  | 0, _, _, st => .fuel st
  | fuel + 1, prev, str_pipe, st =>
    match strstr str_pipe '|' with
    | some i =>
      let errorTest := trimWhitespace str_pipe
      if i = 0 || i + 1 = str_pipe.length ||
          (str_pipe.head? = some ' ' && errorTest.head? = some '|') then
        raise .unexpectedPipe st
      else
        let fd := env.pipeFd st.pipes
        let cur := { slot env st st.cmd_num with pipe_fd_w := fd.2 }
        let st1 := { st with
          trace := st.trace ++ [.pipe fd.1 fd.2], pipes := st.pipes + 1,
          cmd_buf := st.cmd_buf.set st.cmd_num cur }
        match parseRedirect prev (str_pipe.take i) cur with
        | .error e => raise e st1
        | .ok c =>
          let n := st1.cmd_num + 1
          let buf := (realloc env.junk (st1.cmd_buf.set st1.cmd_num c) (n + 2)).set n
            { cmd_st.blank with pipe_fd_r := fd.1, pgid := pgid }
          pipeLoop env pgid fuel '\x00' (str_pipe.drop (i + 1))
            { st1 with cmd_buf := buf, cmd_num := n }
    | none =>
      match parseRedirect prev str_pipe (slot env st st.cmd_num) with
      | .error e => raise e st
      | .ok c => .ok { st with cmd_buf := st.cmd_buf.set st.cmd_num c }

/-- The function `parsePipe`. Every iteration but the last consumes a character. -/
def parsePipe (env : Env) (prev : Char) (str_pipe : CStr) (pgid : Int) (st : ShellState) :
    Parsed :=
  pipeLoop env pgid (str_pipe.length + 1) prev str_pipe st

/-! ## parseInput -/

/-- The condition `(tok_bg = strstr(str_bg, "&")) != NULL && *(tok_bg + 1) != '>'`: the
index of the first `&` when it is not followed by `>`. -/
def bgAmp (str_bg : CStr) : Option Nat :=
  match strstr str_bg '&' with
  | some i => if str_bg.get? (i + 1) = some '>' then none else some i
  | none => none

/-- The assignment `cmd_buf[cmd_num].pgid = pgid; cmd_num++`. -/
def tagAndAdvance (env : Env) (pgid : Int) (st : ShellState) : ShellState :=
  { st with
    cmd_buf := st.cmd_buf.set st.cmd_num { slot env st st.cmd_num with pgid := pgid },
    cmd_num := st.cmd_num + 1 }

/-- The do-while loop over `&` of `parseInput`. `off` is the offset of `str_bg` in the line
and `prev` the byte before it. The loop goes on exactly when an `&` was taken and something
follows it; when the last iteration took no `&`, `cmd_num` is incremented after the loop. -/
def bgLoop (env : Env) : Nat → Nat → Char → CStr → ShellState → Parsed
  | 0, _, _, _, st => .fuel st
  | fuel + 1, off, prev, str_bg, st =>
    match bgAmp str_bg with
    | some i =>
      let errorTest := trimWhitespace str_bg
      if off + i = 0 || (str_bg.head? = some ' ' && errorTest.head? = some '&') then
        raise .unexpectedAmp st
      else
        let pgid := st.pgid_counter + 1
        let buf := (realloc env.junk st.cmd_buf (st.cmd_num + 2)).set (st.cmd_num + 1)
          cmd_st.blank
        match parsePipe env prev (str_bg.take i) pgid
            { st with pgid_counter := pgid, cmd_buf := buf } with
        | .ok st2 =>
          let st3 := tagAndAdvance env pgid st2
          let rest := str_bg.drop (i + 1)
          if rest = [] then .ok st3
          else bgLoop env fuel (off + i + 1) '\x00' rest st3
        | r => r
    | none =>
      match parsePipe env prev str_bg 0 st with
      | .ok st2 => .ok (tagAndAdvance env 0 st2)
      | r => r

/-- One call of `strtok_r` with the delimiter `;` on the string at the saved position: the
number of delimiters skipped, the token, and the string at the new saved position. -/
def strtok_r (s : CStr) : Option (Nat × CStr × CStr) :=
  let k := (s.takeWhile (fun c => c = ';')).length
  let s1 := s.drop k
  if s1 = [] then none
  else
    some (k, s1.takeWhile (fun c => c ≠ ';'), (s1.dropWhile (fun c => c ≠ ';')).drop 1)

/-- The for loop over `;` of `parseInput`. `off` is the offset in the line of the saved
position and `prev` the byte before it. -/
def semiLoop (env : Env) : Nat → Nat → Char → CStr → ShellState → Parsed
  | 0, _, _, _, st => .fuel st
  | fuel + 1, off, prev, str_semi, st =>
    match strtok_r str_semi with
    | none => .ok st
    | some (k, tok_semi, rest) =>
      let buf := (realloc env.junk st.cmd_buf (st.cmd_num + 1)).set st.cmd_num cmd_st.blank
      match bgLoop env (tok_semi.length + 1) (off + k) (if k = 0 then prev else ';') tok_semi
          { st with cmd_buf := buf } with
      | .ok st1 => semiLoop env fuel (off + k + tok_semi.length + 1) '\x00' rest st1
      | r => r

/-- The function `parseInput`. -/
def parseInput (env : Env) (input : CStr) (st : ShellState) : Parsed :=
  semiLoop env (input.length + 1) 0 env.pre input st

/-! ## cleanup and the interrupt handler -/

/-- The function `cleanup`: the queue is freed (`cmd_buf = NULL`), every slot of `pid_buf` is
zeroed and the four counters are reset. -/
def cleanup (st : ShellState) : ShellState :=
  { st with
    cmd_buf := [], pid_buf := List.replicate CHILD_MAX 0,
    cmd_num := 0, pid_idx := 0, pgid_counter := 0, pgid_curr := 0 }

/-- The for loop of `handler`, with `n` slots left to visit from index `i`. -/
def handlerLoop (env : Env) : Nat → Nat → ShellState → ShellState
  | 0, _, st => st
  | n + 1, i, st =>
    let p := st.pid_buf.getD i 0
    if env.shellPid = p then
      handlerLoop env n (i + 1)
        { st with trace := st.trace ++ [.kill p], pid_buf := st.pid_buf.set i 0 }
    else handlerLoop env n (i + 1) st

/-- The function `handler` for `SIGINT`, up to its `siglongjmp`: the loop visits the
indices `0 .. pid_idx`. -/
def handler (env : Env) (st : ShellState) : ShellState :=
  let st1 := cleanup (handlerLoop env (st.pid_idx + 1) 0 st)
  { st1 with trace := st1.trace ++ [.print "\n"] }

/-! ## Builtins and runCommands -/

/-- The text printed by the function `helpCMD`. -/
def helpCMD : String :=
  "\nWelcome to myshell! We support the following actions:\n\tBasic shell commands\n\tSeperating commands using \x27;\x27\n\tStandard input rediertion using \x27<\x27\n\tStandard output redirection using \x27>\x27 or \x271\x27>\n\tStandard error redirection using \x272>\x27\n\tA combination of standard output and error using \x27&>\x27\n\tPipping using \x27|\x27\n\tRunning processes in the background by following a command using \x27&\x27\n\nYou may exit myshell by typing \x27ctrl-d\x27 or \x27exit\x27\n\nTyping \x27ctrl-c\x27 will not exit myshell, it will quit a running program in myshell, and return back to the myshell prompt\n\n"

/-- The result of `builtinHelper`: it returned 1, it returned 0, or it called `exit`. -/
inductive Builtin where
  | handled (st : ShellState)
  | notBuiltin
  | exited (st : ShellState)
deriving DecidableEq, Repr

/-- The function `builtinHelper` on the argument vector `name :: rest`. The `exit` builtin
ends the process, which runs `cleanup` as registered with `atexit`. -/
def builtinHelper (name : CStr) (rest : List CStr) (st : ShellState) : Builtin :=
  if name = "cd".toList then
    .handled { st with trace := st.trace ++ [.chdir rest.head?] }
  else if name = "help".toList then
    .handled { st with trace := st.trace ++ [.print helpCMD] }
  else if name = "echo".toList then
    .handled { st with
      trace := st.trace ++ rest.map (fun t => Event.print (String.mk t ++ " ")) ++
        [.print "\n"] }
  else if name = "exit".toList then .exited (cleanup st)
  else .notBuiltin

/-- The removal loop that follows `waitpid`, with `n = pid_idx - j` slots left. It ends
when `j` reaches `pid_idx` or at the slot holding `pid`; at a slot holding `0` the
`j--` cancels the `j++` and the loop never ends (`none`). -/
def removeLoop (pid : Int) (st : ShellState) : Nat → Nat → Option ShellState
  | 0, _ => some st
  | n + 1, j =>
    if st.pid_buf.getD j 0 = pid then
      some { st with pid_buf := st.pid_buf.set j 0, pid_idx := st.pid_idx - 1 }
    else if st.pid_buf.getD j 0 = 0 then none
    else removeLoop pid st n (j + 1)

/-- How `runCommands` ends in the process that runs it. -/
inductive Ran where
  | returned (st : ShellState)
  | crash (st : ShellState)
  | exited (st : ShellState)
  | child (i : Nat) (st : ShellState)
  | hang (st : ShellState)
deriving DecidableEq, Repr

/-- The parent closes the pipe ends of the descriptor: `pipe_fd_w` when it is not zero, then
`pipe_fd_r` when it is not zero. -/
def closeEvents (c : cmd_st) : List Event :=
  (if c.pipe_fd_w ≠ 0 then [Event.close c.pipe_fd_w] else []) ++
    (if c.pipe_fd_r ≠ 0 then [Event.close c.pipe_fd_r] else [])

/-- The text of `printf("[%d] %d\n", pgid_curr, pid)`. -/
def jobNotice (pgid pid : Int) : String :=
  "[" ++ toString pgid ++ "] " ++ toString pid ++ "\n"

/-- The while loop of `runCommands` at index `i`, with `n = cmd_num - i` descriptors left.
Reading `*(args[0])` crashes when `args` or `args[0]` is NULL; when `args[0]` is the empty
string the body is skipped with `i` unchanged, for ever. A fork that returns `0` is the child
process, which leaves the loop through `execvp` or `exit`. -/
def runLoop (env : Env) : Nat → Nat → ShellState → Ran
  | 0, _, st => .returned st
  | n + 1, i, st =>
    let c := slot env st i
    match c.args with
    | none => .crash st
    | some [] => .crash st
    | some (child_pathname :: rest) =>
      if child_pathname = [] then .hang st
      else
        match builtinHelper child_pathname rest st with
        | .handled st1 => .returned st1
        | .exited st1 => .exited st1
        | .notBuiltin =>
          let pid := env.forkRet st.forks
          let st1 := { st with trace := st.trace ++ [.fork i pid], forks := st.forks + 1 }
          if pid < 0 then .returned { st1 with trace := st1.trace ++ [.perror "Error"] }
          else if pid = 0 then .child i st1
          else
            let st3 := { st1 with trace := st1.trace ++ closeEvents c }
            if c.pgid ≠ 0 then
              if i = 0 || (slot env st (i - 1)).pgid ≠ c.pgid then
                runLoop env n (i + 1)
                  { st3 with pgid_curr := c.pgid,
                             trace := st3.trace ++ [.print (jobNotice c.pgid pid)] }
              else runLoop env n (i + 1) st3
            else
              let st4 := { st3 with
                pid_buf := st3.pid_buf.set st3.pid_idx pid, pid_idx := st3.pid_idx + 1,
                trace := st3.trace ++ [.waitpid pid] }
              match removeLoop pid st4 st4.pid_idx 0 with
              | none => .hang st4
              | some st5 => runLoop env n (i + 1) st5

/-- The function `runCommands`. -/
def runCommands (env : Env) (st : ShellState) : Ran :=
  runLoop env st.cmd_num 0 st

/-! ## The read loop -/

/-- How one iteration of the loop of `myshell` ends: the loop goes on with the next line,
the process ends, or one of the failures of `Parsed` and `Ran`. -/
inductive Cycle where
  | next (st : ShellState)
  | exited (st : ShellState)
  | crash (st : ShellState)
  | child (i : Nat) (st : ShellState)
  | hang (st : ShellState)
deriving DecidableEq, Repr

/-- One iteration of the do-while loop of `myshell` on the answer of `readline` (`none` is
end of input). `cmd_buf` is allocated with `calloc`; a `siglongjmp` out of the parser lands
on the `sigsetjmp` at the top of the loop, which runs `cleanup` and starts the next
iteration. The non-blocking reaping of zombies and the calls into readline are not recorded. -/
def myshell (env : Env) (input : Option CStr) (st : ShellState) : Cycle :=
  let st0 := { st with cmd_buf := [cmd_st.blank] }
  match input with
  | none => .exited (cleanup { st0 with trace := st0.trace ++ [.print "^D\n"] })
  | some line =>
    if 0 < line.length then
      match parseInput env line st0 with
      | .jump st1 => .next (cleanup st1)
      | .crash st1 => .crash st1
      | .fuel st1 => .hang st1
      | .ok st1 =>
        match runCommands env st1 with
        | .returned st2 => if env.tty then .next (cleanup st2) else .exited (cleanup (cleanup st2))
        | .crash st2 => .crash st2
        | .exited st2 => .exited st2
        | .child i st2 => .child i st2
        | .hang st2 => .hang st2
    else if env.tty then .next st0 else .exited (cleanup st0)

/-- The globals at program start, with the trace and the call counts empty. -/
def ShellState.init : ShellState :=
  { cmd_buf := [], cmd_num := 0, pgid_counter := 0, pgid_curr := 0,
    pid_buf := List.replicate CHILD_MAX 0, pid_idx := 0, trace := [], pipes := 0, forks := 0 }

/-! ## Vocabulary of the specification -/

/-- The command queue: the first `cmd_num` slots of `cmd_buf`. -/
def queue (st : ShellState) : List cmd_st :=
  st.cmd_buf.take st.cmd_num

/-- The operator characters of the grammar. -/
def isOperator (c : Char) : Bool :=
  c = ';' || c = '&' || c = '|' || c = '<' || c = '>'

/-- Text without operator characters. -/
def plainText (s : CStr) : Bool :=
  s.all (fun c => !isOperator c)

/-- A well-formed command: text without operator characters that holds a character which
is neither a delimiter of `split` nor white space for `isspace`. -/
def wellFormedCommand (s : CStr) : Bool :=
  plainText s && s.any (fun c => !isDelim c && !isspace c)

/-- The queue left by a parse that returned normally. -/
def Parsed.queue? : Parsed → Option (List cmd_st)
  | .ok st => some (queue st)
  | _ => none

/-- An environment for the worked examples: pipes get the descriptors 3/4, 5/6, ..., the
children the pids 100, 101, ..., unwritten heap slots are zero. -/
def sampleEnv : Env :=
  { pre := '\x00', junk := fun _ => cmd_st.blank,
    pipeFd := fun k => (3 + 2 * (k : Int), 4 + 2 * (k : Int)),
    forkRet := fun k => 100 + (k : Int), shellPid := 99, tty := true }

/-- The text `c0 | c1 | ... | cn` of a pipeline with the first stage `c0` and the later
stages `cs`. -/
def pipeText : CStr → List CStr → CStr
  | c0, [] => c0
  | c0, c :: cs => c0 ++ '|' :: pipeText c cs

/-- The descriptors of a pipeline of plain commands as the loop of `parsePipe` builds them,
when the `k`-th pipe is the next to be allocated and the first stage is parsed into a slot
holding `cur`: every stage but the last gets the write end of a new pipe, and the stage after
it starts from a cleared slot with the read end of that pipe and the group id. -/
def stages (env : Env) (pgid : Int) : Nat → cmd_st → CStr → List CStr → List cmd_st
  | _, cur, c0, [] => [{ cur with args := some (tokens c0) }]
  | k, cur, c0, c :: cs =>
    { cur with pipe_fd_w := (env.pipeFd k).2, args := some (tokens c0) } ::
      stages env pgid (k + 1)
        { cmd_st.blank with pipe_fd_r := (env.pipeFd k).1, pgid := pgid } c cs

/-- The events of the calls number `k`, ..., `k + n - 1` of `pipe`. -/
def pipeEvents (env : Env) (k n : Nat) : List Event :=
  (List.range' k n).map (fun j => Event.pipe (env.pipeFd j).1 (env.pipeFd j).2)

/-- The state in which an iteration of the read loop ended. -/
def Cycle.state : Cycle → ShellState
  | .next st => st
  | .exited st => st
  | .crash st => st
  | .child _ st => st
  | .hang st => st

/-- A call of `fork`. -/
def Event.isFork : Event → Bool
  | .fork _ _ => true
  | _ => false

/-- A blocking wait. -/
def Event.isWait : Event → Bool
  | .waitpid _ => true
  | _ => false

/-- Every fork of the trace precedes every wait: nothing is forked once a wait has been
performed. -/
def forksPrecedeWaits (tr : List Event) : Bool :=
  (tr.dropWhile (fun e => !e.isWait)).all (fun e => !e.isFork)

/-- A name that `runCommands` hands to `fork`: not empty and none of the four builtins. -/
def isExternal (name : CStr) : Bool :=
  name ≠ [] && name ≠ "cd".toList && name ≠ "help".toList && name ≠ "echo".toList &&
    name ≠ "exit".toList

/-- A foreground stage: group id 0 and an external command as first argument. -/
def foregroundStage (c : cmd_st) : Bool :=
  c.pgid = 0 &&
    match c.args with
    | some (name :: _) => isExternal name
    | _ => false

/-- What the shell does for the foreground descriptor `c` at index `i` when `fork` returns
`pid`: fork, close the pipe ends the descriptor holds, wait for the child. -/
def stageEvents (c : cmd_st) (i : Nat) (pid : Int) : List Event :=
  [Event.fork i pid] ++ closeEvents c ++ [Event.waitpid pid]

/-- The events of `n` foreground descriptors from index `i` on, one after the other, when
`k` calls of `fork` have been made before. -/
def foregroundTrace (env : Env) (buf : List cmd_st) : Nat → Nat → Nat → List Event
  | 0, _, _ => []
  | n + 1, i, k =>
    stageEvents (buf.getD i (env.junk i)) i (env.forkRet k) ++
      foregroundTrace env buf n (i + 1) (k + 1)

/-- The state carried by the result of a parsing function. -/
def Parsed.state : Parsed → ShellState
  | .ok st => st
  | .jump st => st
  | .crash st => st
  | .fuel st => st

/-- The text `c1&c2&...&ck&last` of a statement with the background operands `cs` and the
final operand `last` (empty when the statement ends with `&`). -/
def bgText : List CStr → CStr → CStr
  | [], last => last
  | c :: cs, last => c ++ '&' :: bgText cs last

/-- The descriptors of the background operands `cs` when the counter stands at `p`: the
operands get the ids `p + 1`, `p + 2`, ... in order. -/
def backgroundQueue : Int → List CStr → List cmd_st
  | _, [] => []
  | p, c :: cs =>
    { cmd_st.blank with args := some (tokens c), pgid := p + 1 } :: backgroundQueue (p + 1) cs

/-- The descriptor of the final operand of a statement: foreground, and absent when the
statement ends with `&`. -/
def finalQueue (last : CStr) : List cmd_st :=
  if last = [] then [] else [{ cmd_st.blank with args := some (tokens last) }]

/-- The bytes written to standard output by the `printf` calls of a trace, in order. -/
def printed : List Event → List Char
  | [] => []
  | .print s :: tr => s.data ++ printed tr
  | _ :: tr => printed tr

/-- What a parse started in `st` may have done to the outside world when it ends with the
result `r`: `n` calls of `pipe`, and after them, when the parse jumped out, the `printf` of
one error message. -/
def parsedTrace (env : Env) (st : ShellState) : Parsed → Prop
  | .jump s => ∃ (n : Nat) (e : ParseError), s.pipes = st.pipes + n ∧
      s.trace = st.trace ++ pipeEvents env st.pipes n ++ [.print e.message]
  | .ok s => ∃ n : Nat, s.pipes = st.pipes + n ∧ s.trace = st.trace ++ pipeEvents env st.pipes n
  | .crash s => ∃ n : Nat, s.pipes = st.pipes + n ∧
      s.trace = st.trace ++ pipeEvents env st.pipes n
  | .fuel s => ∃ n : Nat, s.pipes = st.pipes + n ∧
      s.trace = st.trace ++ pipeEvents env st.pipes n

/-- The non-empty pieces of a line between its `;` characters, in order. -/
def semiPieces (line : CStr) : List CStr :=
  (line.splitOn ';').filter (fun t => !t.isEmpty)

/-- The descriptor of a plain foreground command: its tokens, nothing else set. -/
def plainDescriptor (s : CStr) : cmd_st :=
  { cmd_st.blank with args := some (tokens s) }

/-- The file name that `parseRedirect` stores for an operand span: one trailing space cut,
leading white space trimmed. -/
def operandName (x : CStr) : CStr :=
  trimWhitespace (if x.getLast? = some ' ' then x.dropLast else x)

/-- The descriptor after the output name has been stored according to `stdout_ctl`: 1 is
the output file, 2 the error file, 3 both. -/
def withOutput (ctl : Nat) (name : CStr) (c : cmd_st) : cmd_st :=
  if ctl = 1 then { c with file_out := some name }
  else if ctl = 2 then { c with file_err := some name }
  else { c with file_out := some name, file_err := some name }

/-- The stage `c < f P> g`, written with single spaces. -/
def inThenOut (c f P g : CStr) : CStr :=
  c ++ ' ' :: '<' :: ' ' :: (f ++ ' ' :: (P ++ '>' :: ' ' :: g))

/-- The stage `c P> g < f`, written with single spaces. -/
def outThenIn (c f P g : CStr) : CStr :=
  c ++ ' ' :: (P ++ '>' :: ' ' :: (g ++ ' ' :: '<' :: ' ' :: f))

/-- The output prefixes of the grammar with the streams they select: nothing and `1` stand
for standard output (1), `2` for standard error (2), `&` for both (3). -/
def outputPrefix : CStr → Option Nat
  | [] => some 1
  | ['1'] => some 1
  | ['2'] => some 2
  | ['&'] => some 3
  | _ => none

/-- A descriptor that `runCommands` forks: its first argument is an external command. -/
def externalStage (c : cmd_st) : Bool :=
  match c.args with
  | some (name :: _) => isExternal name
  | _ => false

/-- What the shell does for the external descriptor at index `i` of the queue `buf` when
`fork` returns `pid`: fork, close the pipe ends of the descriptor, and then wait for the
child when the group id is 0, print the job notice when the descriptor starts a background
group, nothing more when it continues one. -/
def stageActions (env : Env) (buf : List cmd_st) (i : Nat) (pid : Int) : List Event :=
  [Event.fork i pid] ++ closeEvents (buf.getD i (env.junk i)) ++
    (if (buf.getD i (env.junk i)).pgid ≠ 0 then
      (if i = 0 || (buf.getD (i - 1) (env.junk (i - 1))).pgid ≠ (buf.getD i (env.junk i)).pgid
        then [Event.print (jobNotice (buf.getD i (env.junk i)).pgid pid)]
        else [])
    else [Event.waitpid pid])

/-- The actions for `n` external descriptors from index `i` on, when `k` calls of `fork`
have been made before. -/
def externalTrace (env : Env) (buf : List cmd_st) : Nat → Nat → Nat → List Event
  | 0, _, _ => []
  | n + 1, i, k =>
    stageActions env buf i (env.forkRet k) ++ externalTrace env buf n (i + 1) (k + 1)

/-- The names of the builtins that return to the read loop. -/
def isReturningBuiltin (name : CStr) : Bool :=
  name = "cd".toList || name = "help".toList || name = "echo".toList

/-! ## The tracked pid set between the descriptors of runCommands -/

/-- The state in which a run of `runCommands` ends. -/
def Ran.state : Ran → ShellState
  | .returned st => st
  | .crash st => st
  | .exited st => st
  | .child _ st => st
  | .hang st => st

/-- How one pass through the body of the while loop of `runCommands` ends: at the `i++`
that leads back to the loop test, or by leaving the function. -/
inductive Pass where
  | next (st : ShellState)
  | stop (r : Ran)
deriving DecidableEq, Repr

/-- The foreground branch of the parent up to `waitpid`: `pid_buf[pid_idx] = pid`,
`pid_idx++` and the blocking wait. -/
def registerPid (pid : Int) (st : ShellState) : ShellState :=
  { st with
    pid_buf := st.pid_buf.set st.pid_idx pid, pid_idx := st.pid_idx + 1,
    trace := st.trace ++ [.waitpid pid] }

/-- The body of the while loop of `runCommands` for the descriptor at index `i`. -/
def runBody (env : Env) (i : Nat) (st : ShellState) : Pass :=
  let c := slot env st i
  match c.args with
  | none => .stop (.crash st)
  | some [] => .stop (.crash st)
  | some (child_pathname :: rest) =>
    if child_pathname = [] then .stop (.hang st)
    else
      match builtinHelper child_pathname rest st with
      | .handled st1 => .stop (.returned st1)
      | .exited st1 => .stop (.exited st1)
      | .notBuiltin =>
        let pid := env.forkRet st.forks
        let st1 := { st with trace := st.trace ++ [.fork i pid], forks := st.forks + 1 }
        if pid < 0 then .stop (.returned { st1 with trace := st1.trace ++ [.perror "Error"] })
        else if pid = 0 then .stop (.child i st1)
        else
          let st3 := { st1 with trace := st1.trace ++ closeEvents c }
          if c.pgid ≠ 0 then
            if i = 0 || (slot env st (i - 1)).pgid ≠ c.pgid then
              .next { st3 with pgid_curr := c.pgid,
                               trace := st3.trace ++ [.print (jobNotice c.pgid pid)] }
            else .next st3
          else
            let st4 := registerPid pid st3
            match removeLoop pid st4 st4.pid_idx 0 with
            | none => .stop (.hang st4)
            | some st5 => .next st5

/-- The states at the loop test of `runCommands`, with `n = cmd_num - i` descriptors left:
the state before the descriptor at index `i`, then the states after each descriptor that is
processed, the last one being the state in which the function is left. -/
def loopStates (env : Env) : Nat → Nat → ShellState → List ShellState
  | 0, _, st => [st]
  | n + 1, i, st =>
    st ::
      match runBody env i st with
      | .next st1 => loopStates env n (i + 1) st1
      | .stop r => [r.state]

/-- The tracked foreground pid set is empty: `pid_idx` is 0 and each of the `CHILD_MAX`
slots of `pid_buf` holds 0. -/
def trackedEmpty (st : ShellState) : Prop :=
  st.pid_idx = 0 ∧ st.pid_buf = List.replicate CHILD_MAX 0

instance (st : ShellState) : Decidable (trackedEmpty st) := by
  unfold trackedEmpty
  infer_instance

/-- An environment like `sampleEnv` in which the heap is not zeroed: a slot of `cmd_buf`
that `realloc` has handed out and nobody has written holds a stale read end, 7. -/
def dirtyEnv : Env :=
  { sampleEnv with junk := fun _ => { cmd_st.blank with pipe_fd_r := 7 } }

/-! # Theorems -/

/-! ## Facts about the string functions -/

theorem strstr_of_not_mem {s : CStr} {c : Char} (h : c ∉ s) : strstr s c = none := by
  simp [strstr, h]

theorem strstr_append_cons {a b : CStr} {c : Char} (h : c ∉ a) :
    strstr (a ++ c :: b) c = some a.length := by
  simp [strstr, List.indexOf_append_of_not_mem h]

theorem strstr_isSome_iff {s : CStr} {c : Char} : (strstr s c).isSome = true ↔ c ∈ s := by
  unfold strstr
  split <;> simp_all

theorem strstr_some_lt {s : CStr} {c : Char} {i : Nat} (h : strstr s c = some i) :
    i < s.length ∧ s.get? i = some c := by
  unfold strstr at h
  split at h
  · rename_i hm
    simp only [Option.some.injEq] at h
    subst h
    have hlt : s.indexOf c < s.length := List.indexOf_lt_length.2 hm
    refine ⟨hlt, ?_⟩
    rw [List.get?_eq_getElem?, List.getElem?_eq_getElem hlt]
    simp
  · simp at h

theorem splitOnP_unfold (p : Char → Bool) (l : CStr) :
    l.splitOnP p = l.takeWhile (fun c => !p c) ::
      (match l.dropWhile (fun c => !p c) with
       | [] => []
       | _ :: r => r.splitOnP p) := by
  induction l with
  | nil => simp
  | cons x xs ih =>
    rw [List.splitOnP_cons]
    by_cases hx : p x = true
    · simp [hx]
    · simp only [hx, if_false]
      rw [ih]
      simp [hx]

theorem tokens_nil : tokens [] = [] := by
  simp [tokens]

theorem tokens_dropWhile (s : CStr) : tokens (s.dropWhile isDelim) = tokens s := by
  induction s with
  | nil => rfl
  | cons x xs ih =>
    by_cases hx : isDelim x = true
    · rw [List.dropWhile_cons_of_pos hx, ih]
      simp [tokens, List.splitOnP_cons, hx]
    · rw [List.dropWhile_cons_of_neg hx]

theorem tokens_strtok (s : CStr) :
    tokens s = match strtok s with
      | none => []
      | some (t, r) => t :: tokens r := by
  rw [← tokens_dropWhile s]
  unfold strtok
  simp only
  split_ifs with h
  · rw [h, tokens_nil]
  · obtain ⟨x, xs, hs⟩ := List.exists_cons_of_ne_nil h
    have hx : isDelim x = false := by
      have := List.head_dropWhile_not isDelim s h
      simpa [hs] using this
    simp only [hs]
    unfold tokens
    rw [splitOnP_unfold]
    rw [List.filter_cons_of_pos (by simp [hx])]
    congr 1
    cases hd : List.dropWhile (fun c => !isDelim c) (x :: xs) with
    | nil => simp
    | cons d r => simp

theorem strtok_length {s t r : CStr} (h : strtok s = some (t, r)) : r.length < s.length := by
  unfold strtok at h
  simp only at h
  split_ifs at h with h1
  simp only [Option.some.injEq, Prod.mk.injEq] at h
  obtain ⟨-, rfl⟩ := h
  have h2 : (s.dropWhile isDelim).length ≤ s.length := (List.dropWhile_sublist _).length_le
  have h3 : ((s.dropWhile isDelim).dropWhile (fun c => !isDelim c)).length
      ≤ (s.dropWhile isDelim).length := (List.dropWhile_sublist _).length_le
  have h4 : 0 < (s.dropWhile isDelim).length := List.length_pos.2 h1
  rw [List.length_drop]
  rcases Nat.eq_zero_or_pos ((s.dropWhile isDelim).dropWhile (fun c => !isDelim c)).length
    with h5 | h5
  · omega
  · omega

theorem splitLoop_eq_tokens (fuel : Nat) (s : CStr) (h : s.length < fuel) :
    splitLoop fuel s = tokens s := by
  induction fuel generalizing s with
  | zero => omega
  | succ n ih =>
    rw [tokens_strtok]
    unfold splitLoop
    cases hs : strtok s with
    | none => rfl
    | some p =>
      obtain ⟨t, r⟩ := p
      simp only
      rw [ih r (by have := strtok_length hs; omega)]

/-- The function `split` returns the maximal runs of non-delimiter characters. -/
theorem split_eq_tokens (s : CStr) : split s = tokens s :=
  splitLoop_eq_tokens _ s (Nat.lt_succ_self _)

/-! ## Facts about the queue -/

theorem realloc_length (junk : Nat → cmd_st) (buf : List cmd_st) (n : Nat) :
    (realloc junk buf n).length = n := by
  simp [realloc]
  omega

theorem take_realloc (junk : Nat → cmd_st) (buf : List cmd_st) {k n : Nat}
    (hk : k ≤ n) (hb : k ≤ buf.length) : (realloc junk buf n).take k = buf.take k := by
  unfold realloc
  rw [List.take_append_of_le_length (by simp; omega), List.take_take, Nat.min_eq_left hk]

theorem realloc_set_last (junk : Nat → cmd_st) (buf : List cmd_st) (n : Nat) (x : cmd_st)
    (hb : n ≤ buf.length) : (realloc junk buf (n + 1)).set n x = buf.take n ++ [x] := by
  rw [List.set_eq_take_append_cons_drop, if_pos (by rw [realloc_length]; omega)]
  rw [take_realloc junk buf (Nat.le_succ n) hb]
  rw [List.drop_of_length_le (by rw [realloc_length])]

/-! ## Plain text through the parser -/

theorem plainText_not_mem {s : CStr} (h : plainText s = true) {c : Char}
    (hc : isOperator c = true) : c ∉ s := by
  intro hm
  have := List.all_eq_true.1 h c hm
  simp [hc] at this

theorem parseRedirect_plain (prev : Char) (s : CStr) (command : cmd_st) (hne : s ≠ [])
    (hin : '<' ∉ s) (hout : '>' ∉ s) :
    parseRedirect prev s command = .ok { command with args := some (tokens s) } := by
  have hlen : 0 < s.length := List.length_pos.2 hne
  unfold parseRedirect
  rw [if_neg hne]
  simp only [strstr_of_not_mem hin, strstr_of_not_mem hout, spans, split_eq_tokens]
  have h0 : ¬ ((s.length : Int) = 0) := by omega
  have h1 : ¬ ((s.length : Int) < 0) := by omega
  simp [h0, h1]

theorem parsePipe_plain (env : Env) (prev : Char) (s : CStr) (pgid : Int) (st : ShellState)
    (hne : s ≠ []) (hp : '|' ∉ s) (hin : '<' ∉ s) (hout : '>' ∉ s) :
    parsePipe env prev s pgid st = .ok { st with
      cmd_buf := st.cmd_buf.set st.cmd_num
        { slot env st st.cmd_num with args := some (tokens s) } } := by
  unfold parsePipe pipeLoop
  rw [strstr_of_not_mem hp]
  simp only [parseRedirect_plain prev s _ hne hin hout]

theorem bgAmp_of_not_mem {s : CStr} (h : '&' ∉ s) : bgAmp s = none := by
  simp [bgAmp, strstr_of_not_mem h]

theorem strtok_r_of_not_mem {s : CStr} (hne : s ≠ []) (h : ';' ∉ s) :
    strtok_r s = some (0, s, []) := by
  have h1 : s.takeWhile (fun c => decide (c = ';')) = [] := by
    cases s with
    | nil => rfl
    | cons x xs =>
      have : x ≠ ';' := fun hx => h (by simp [hx])
      simp [List.takeWhile_cons, this]
  have h2 : s.takeWhile (fun c => decide (c ≠ ';')) = s := by
    rw [List.takeWhile_eq_self_iff]
    intro x hx
    have : x ≠ ';' := fun hx' => h (hx' ▸ hx)
    simpa using this
  have h3 : s.dropWhile (fun c => decide (c ≠ ';')) = [] := by
    rw [List.dropWhile_eq_nil_iff]
    intro x hx
    have : x ≠ ';' := fun hx' => h (hx' ▸ hx)
    simpa using this
  unfold strtok_r
  simp only [h1, List.length_nil, List.drop_zero, if_neg hne, h2, h3, List.drop_nil]

theorem strtok_r_nil : strtok_r [] = none := by
  simp [strtok_r]

/-- C1. A non-empty line without operator characters, parsed on a state with an empty queue,
leaves exactly one descriptor in the queue: `cmd_num = 1`, the descriptor has group id 0,
no pipe ends and no redirection files, and its argument vector is the list of the maximal
runs of non-delimiter characters of the line. Nothing else of the state changes. -/
theorem parseInput_no_operators (env : Env) (st : ShellState) (line : CStr)
    (hne : line ≠ []) (hplain : plainText line = true) (hfresh : st.cmd_num = 0) :
    parseInput env line st = .ok { st with
        cmd_buf := [{ cmd_st.blank with args := some (tokens line) }], cmd_num := 1 } ∧
      queue { st with
        cmd_buf := [{ cmd_st.blank with args := some (tokens line) }], cmd_num := 1 } =
        [{ args := some (tokens line), pipe_fd_r := 0, pipe_fd_w := 0, file_in := none,
           file_out := none, file_err := none, pgid := 0 }] := by
  refine ⟨?_, rfl⟩
  have hsemi := plainText_not_mem hplain (c := ';') rfl
  have hamp := plainText_not_mem hplain (c := '&') rfl
  have hpipe := plainText_not_mem hplain (c := '|') rfl
  have hin := plainText_not_mem hplain (c := '<') rfl
  have hout := plainText_not_mem hplain (c := '>') rfl
  obtain ⟨n, hn⟩ : ∃ n, line.length = n + 1 :=
    ⟨line.length - 1, by have := List.length_pos.2 hne; omega⟩
  unfold parseInput
  rw [hn]
  unfold semiLoop
  rw [strtok_r_of_not_mem hne hsemi]
  simp only [hfresh]
  unfold bgLoop
  rw [bgAmp_of_not_mem hamp, parsePipe_plain env _ line 0 _ hne hpipe hin hout]
  simp only [semiLoop, strtok_r_nil, tagAndAdvance, slot]
  have hb : (realloc env.junk st.cmd_buf (0 + 1)).set 0 cmd_st.blank = [cmd_st.blank] := by
    rw [realloc_set_last env.junk st.cmd_buf 0 _ (Nat.zero_le _)]
    simp
  rw [hb]
  simp [cmd_st.blank]

/-- The line `ls -l` on the initial state: one descriptor with the arguments `ls`, `-l`. -/
theorem parseInput_no_operators_witness :
    parseInput ⟨'x', fun _ => cmd_st.blank, fun _ => (3, 4), fun _ => 7, 1, true⟩
        "ls -l".toList ShellState.init = .ok { ShellState.init with
        cmd_buf := [{ cmd_st.blank with args := some (tokens "ls -l".toList) }], cmd_num := 1 } ∧
      queue { ShellState.init with
        cmd_buf := [{ cmd_st.blank with args := some (tokens "ls -l".toList) }], cmd_num := 1 } =
        [{ args := some (tokens "ls -l".toList), pipe_fd_r := 0, pipe_fd_w := 0,
           file_in := none, file_out := none, file_err := none, pgid := 0 }] :=
  parseInput_no_operators _ ShellState.init "ls -l".toList (by decide) (by decide) rfl

/-- C2, at the statement `a | b &`: the parse queues two descriptors and the first stage
keeps group id 0; only the second carries the id 1 minted for the `&`. -/
theorem parseInput_background_pipeline_first_stage :
    (parseInput sampleEnv "a | b &".toList ShellState.init).queue?.map
      (fun q => q.map (fun c => (c.args, c.pgid))) =
      some [(some [['a']], 0), (some [['b']], 1)] := by
  decide

/-! ## Pipelines of plain commands -/

theorem take_set_of_le {α : Type} (l : List α) (x : α) {k i : Nat} (h : k ≤ i) :
    (l.set i x).take k = l.take k := by
  rcases Nat.eq_or_lt_of_le h with rfl | hlt
  · induction l generalizing k with
    | nil => simp
    | cons a t ih =>
      cases k with
      | zero => simp
      | succ k => simp [ih (Nat.le_refl k)]
  · exact List.take_set_of_lt x l hlt

theorem take_succ_set {α : Type} (l : List α) (x : α) {n : Nat} (h : n < l.length) :
    (l.set n x).take (n + 1) = l.take n ++ [x] := by
  rw [List.take_succ, take_set_of_le l x (Nat.le_refl n)]
  simp [h]

theorem getD_set_self {α : Type} (l : List α) (x d : α) {n : Nat} (h : n < l.length) :
    (l.set n x).getD n d = x := by
  rw [List.getD_eq_getElem _ _ (by simpa using h)]
  simp

theorem wellFormed_plain {c : CStr} (h : wellFormedCommand c = true) : plainText c = true := by
  unfold wellFormedCommand at h
  simp only [Bool.and_eq_true] at h
  exact h.1

theorem wellFormed_ne_nil {c : CStr} (h : wellFormedCommand c = true) : c ≠ [] := by
  rintro rfl
  simp [wellFormedCommand] at h

theorem wellFormed_visible {c : CStr} (h : wellFormedCommand c = true) :
    ∃ x ∈ c, isDelim x = false ∧ isspace x = false := by
  unfold wellFormedCommand at h
  simp only [Bool.and_eq_true, List.any_eq_true, Bool.not_eq_true'] at h
  obtain ⟨-, x, hx, h1, h2⟩ := h
  exact ⟨x, hx, h1, h2⟩

/-- After `trimWhitespace`, a string that starts with a well-formed command starts with a
character of that command. -/
theorem trim_head_mem (c r : CStr) (h : ∃ x ∈ c, isspace x = false) :
    ∃ x ∈ c, (trimWhitespace (c ++ r)).head? = some x := by
  induction c with
  | nil => simp at h
  | cons a t ih =>
    by_cases ha : isspace a = true
    · have ht : ∃ x ∈ t, isspace x = false := by
        obtain ⟨x, hx, hs⟩ := h
        rcases List.mem_cons.1 hx with rfl | hx
        · simp [ha] at hs
        · exact ⟨x, hx, hs⟩
      obtain ⟨x, hx, hh⟩ := ih ht
      refine ⟨x, List.mem_cons_of_mem _ hx, ?_⟩
      unfold trimWhitespace at hh ⊢
      rw [List.cons_append, List.dropWhile_cons_of_pos ha]
      exact hh
    · refine ⟨a, List.mem_cons_self _ _, ?_⟩
      unfold trimWhitespace
      rw [List.cons_append, List.dropWhile_cons_of_neg ha]
      rfl

theorem pipeText_ne_nil {c0 : CStr} (cs : List CStr) (h : c0 ≠ []) : pipeText c0 cs ≠ [] := by
  cases cs with
  | nil => exact h
  | cons c cs => simp [pipeText, h]

theorem pipeLoop_pipeline (env : Env) (pgid : Int) (cs : List CStr) :
    ∀ (c0 : CStr) (fuel : Nat) (prev : Char) (st : ShellState),
      (∀ c ∈ c0 :: cs, wellFormedCommand c = true) →
      (pipeText c0 cs).length < fuel →
      st.cmd_num < st.cmd_buf.length →
      ∃ buf : List cmd_st,
        pipeLoop env pgid fuel prev (pipeText c0 cs) st = .ok { st with
          cmd_buf := buf, cmd_num := st.cmd_num + cs.length,
          pipes := st.pipes + cs.length,
          trace := st.trace ++ pipeEvents env st.pipes cs.length } ∧
        st.cmd_num + cs.length < buf.length ∧
        buf.take (st.cmd_num + cs.length + 1) =
          st.cmd_buf.take st.cmd_num ++
            stages env pgid st.pipes (slot env st st.cmd_num) c0 cs := by
  induction cs with
  | nil =>
    intro c0 fuel prev st hwf hfuel hlen
    have h0 := hwf c0 (List.mem_cons_self _ _)
    have hp := wellFormed_plain h0
    obtain ⟨n, rfl⟩ : ∃ n, fuel = n + 1 := ⟨fuel - 1, by omega⟩
    refine ⟨st.cmd_buf.set st.cmd_num { slot env st st.cmd_num with args := some (tokens c0) },
      ?_, by simpa using hlen, ?_⟩
    · have := parsePipe_plain env prev c0 pgid st (wellFormed_ne_nil h0)
        (plainText_not_mem hp rfl) (plainText_not_mem hp rfl) (plainText_not_mem hp rfl)
      unfold parsePipe pipeLoop at this
      unfold pipeLoop
      simp only [pipeText, strstr_of_not_mem (plainText_not_mem hp (c := '|') rfl)] at this ⊢
      rw [parseRedirect_plain prev c0 _ (wellFormed_ne_nil h0)
        (plainText_not_mem hp rfl) (plainText_not_mem hp rfl)]
      simp [pipeEvents]
    · simp only [Nat.add_zero, List.length_nil, stages]
      exact take_succ_set _ _ hlen
  | cons c cs ih =>
    intro c0 fuel prev st hwf hfuel hlen
    have h0 := hwf c0 (List.mem_cons_self _ _)
    have hp := wellFormed_plain h0
    have hc0 := wellFormed_ne_nil h0
    have hc := hwf c (by simp)
    have hrest : ∀ x ∈ c :: cs, wellFormedCommand x = true :=
      fun x hx => hwf x (List.mem_cons_of_mem _ hx)
    obtain ⟨n, rfl⟩ : ∃ n, fuel = n + 1 := ⟨fuel - 1, by omega⟩
    have hpipe : '|' ∉ c0 := plainText_not_mem hp rfl
    have htext : pipeText c0 (c :: cs) = c0 ++ '|' :: pipeText c cs := rfl
    have hrne : pipeText c cs ≠ [] := pipeText_ne_nil cs (wellFormed_ne_nil hc)
    have hc0len : 0 < c0.length := List.length_pos.2 hc0
    have hrlen : 0 < (pipeText c cs).length := List.length_pos.2 hrne
    have htake0 : (c0 ++ '|' :: pipeText c cs).take c0.length = c0 := List.take_left' rfl
    have hdrop0 : (c0 ++ '|' :: pipeText c cs).drop (c0.length + 1) = pipeText c cs := by
      rw [show c0 ++ '|' :: pipeText c cs = (c0 ++ ['|']) ++ pipeText c cs by simp]
      exact List.drop_left' (by simp)
    -- the error test does not fire
    have herr : (c0.length = 0 || c0.length + 1 = (c0 ++ '|' :: pipeText c cs).length ||
        ((c0 ++ '|' :: pipeText c cs).head? = some ' ' &&
          (trimWhitespace (c0 ++ '|' :: pipeText c cs)).head? = some '|')) = false := by
      obtain ⟨x, hx, -, hsp⟩ := wellFormed_visible h0
      obtain ⟨y, hy, hhead⟩ := trim_head_mem c0 ('|' :: pipeText c cs) ⟨x, hx, hsp⟩
      have hy' : y ≠ '|' := fun e => hpipe (e ▸ hy)
      simp only [hhead, List.length_append, List.length_cons]
      have e1 : (c0.length = 0) = False := eq_false (by omega)
      have e2 : (c0.length + 1 = c0.length + ((pipeText c cs).length + 1)) = False :=
        eq_false (by omega)
      simp [e1, e2, hy']
    have hfuel1 : (pipeText c cs).length < n := by
      rw [htext, List.length_append, List.length_cons] at hfuel
      omega
    set fd := env.pipeFd st.pipes with hfd
    set cur : cmd_st := { slot env st st.cmd_num with pipe_fd_w := fd.2 } with hcur
    set new : cmd_st := { cmd_st.blank with pipe_fd_r := fd.1, pgid := pgid } with hnew
    set buf1 := (realloc env.junk
      ((st.cmd_buf.set st.cmd_num cur).set st.cmd_num { cur with args := some (tokens c0) })
      (st.cmd_num + 1 + 2)).set (st.cmd_num + 1) new with hbuf1
    set st1 : ShellState := { st with
      trace := st.trace ++ [.pipe fd.1 fd.2], pipes := st.pipes + 1,
      cmd_buf := buf1, cmd_num := st.cmd_num + 1 } with hst1
    have hlen1 : st1.cmd_num < st1.cmd_buf.length := by
      simp [hst1, hbuf1, realloc_length]
    obtain ⟨buf, hrun, hblen, htake⟩ := ih c n '\x00' st1 hrest hfuel1 hlen1
    have hslot1 : slot env st1 st1.cmd_num = new := by
      simp only [slot, hst1, hbuf1]
      exact getD_set_self _ _ _ (by rw [realloc_length]; omega)
    have htake1 : st1.cmd_buf.take st1.cmd_num =
        st.cmd_buf.take st.cmd_num ++ [{ cur with args := some (tokens c0) }] := by
      simp only [hst1, hbuf1]
      rw [take_set_of_le _ _ (Nat.le_refl _), take_realloc _ _ (by omega) (by simp; omega),
        take_succ_set _ _ (by simpa using hlen), take_set_of_le _ _ (Nat.le_refl _)]
    refine ⟨buf, ?_, ?_, ?_⟩
    · unfold pipeLoop
      rw [htext, strstr_append_cons hpipe]
      simp only [herr, htake0, hdrop0]
      rw [parseRedirect_plain prev c0 _ hc0 (plainText_not_mem hp rfl)
        (plainText_not_mem hp rfl)]
      simp only [Bool.false_eq_true, if_false]
      rw [hrun]
      simp only [hst1, pipeEvents, List.length_cons, List.range'_succ, List.map_cons,
        List.append_assoc, List.singleton_append]
      congr 2 <;> omega
    · simp only [hst1, List.length_cons] at hblen ⊢
      omega
    · rw [show st.cmd_num + (c :: cs).length + 1 = st1.cmd_num + cs.length + 1 by
        simp only [hst1, List.length_cons]; omega]
      rw [htake, htake1, hslot1]
      simp [stages, hst1, hcur, hnew, hfd]

theorem stages_getElem? (env : Env) (pgid : Int) (cs : List CStr) :
    ∀ (k : Nat) (cur : cmd_st) (c0 : CStr) (i : Nat), i ≤ cs.length →
      ∃ d, (stages env pgid k cur c0 cs)[i]? = some d ∧
        d.args = some (tokens ((c0 :: cs).getD i [])) ∧
        d.pipe_fd_w = (if i < cs.length then (env.pipeFd (k + i)).2
          else if i = 0 then cur.pipe_fd_w else 0) ∧
        d.pipe_fd_r = (if i = 0 then cur.pipe_fd_r else (env.pipeFd (k + i - 1)).1) ∧
        d.pgid = (if i = 0 then cur.pgid else pgid) ∧
        d.file_in = (if i = 0 then cur.file_in else none) ∧
        d.file_out = (if i = 0 then cur.file_out else none) ∧
        d.file_err = (if i = 0 then cur.file_err else none) := by
  induction cs with
  | nil =>
    intro k cur c0 i hi
    have : i = 0 := by simpa using hi
    subst this
    simp [stages]
  | cons c cs ih =>
    intro k cur c0 i hi
    cases i with
    | zero => simp [stages]
    | succ j =>
      have hj : j ≤ cs.length := by simpa using hi
      obtain ⟨d, hd, h1, h2, h3, h4, h5, h6, h7⟩ :=
        ih (k + 1) { cmd_st.blank with pipe_fd_r := (env.pipeFd k).1, pgid := pgid } c j hj
      refine ⟨d, by simpa [stages] using hd, ?_, ?_, ?_, ?_, ?_, ?_, ?_⟩
      · simpa using h1
      · rw [h2]
        by_cases hjl : j < cs.length
        · simp [hjl, Nat.add_assoc, Nat.add_comm 1 j]
        · simp only [hjl, if_false, List.length_cons, Nat.add_lt_add_iff_right,
            Nat.add_one_ne_zero]
          split <;> rfl
      · rw [h3]
        by_cases hj0 : j = 0
        · subst hj0
          simp
        · simp only [hj0, if_false, Nat.add_one_ne_zero]
          congr 2
          omega
      · rw [h4]
        split <;> simp
      · rw [h5]
        split <;> simp [cmd_st.blank]
      · rw [h6]
        split <;> simp [cmd_st.blank]
      · rw [h7]
        split <;> simp [cmd_st.blank]

/-- A pipeline parsed into a cleared slot. On a segment `c0 | c1 | ... | cn` of well-formed
commands, entered with a cleared current slot and an environment whose pipes have nonzero
descriptors, `parsePipe` returns normally, has called `pipe` exactly `n` times, has advanced
`cmd_num` by `n` and leaves the `n + 1` descriptors in source order from the slot it started
at: descriptor `i` holds the tokens of `ci`, its write end is set exactly when `i < n`, its
read end exactly when `0 < i`, and the write end of descriptor `i` and the read end of
descriptor `i + 1` are the two ends of the same call of `pipe`. The descriptors queued
before are untouched. -/
theorem parsePipe_pipeline (env : Env) (prev : Char) (pgid : Int) (st : ShellState)
    (c0 : CStr) (cs : List CStr)
    (hwf : ∀ c ∈ c0 :: cs, wellFormedCommand c = true)
    (hlen : st.cmd_num < st.cmd_buf.length)
    (hblank : slot env st st.cmd_num = cmd_st.blank)
    (hfd : ∀ k, (env.pipeFd k).1 ≠ 0 ∧ (env.pipeFd k).2 ≠ 0) :
    ∃ st', parsePipe env prev (pipeText c0 cs) pgid st = .ok st' ∧
      st'.pipes = st.pipes + cs.length ∧
      st'.trace = st.trace ++ pipeEvents env st.pipes cs.length ∧
      st'.cmd_num = st.cmd_num + cs.length ∧
      st'.cmd_buf.take st.cmd_num = queue st ∧
      ∀ i, i ≤ cs.length → ∃ d, st'.cmd_buf.get? (st.cmd_num + i) = some d ∧
        d.args = some (tokens ((c0 :: cs).getD i [])) ∧
        (d.pipe_fd_w ≠ 0 ↔ i < cs.length) ∧
        (d.pipe_fd_r ≠ 0 ↔ 0 < i) ∧
        (i < cs.length → d.pipe_fd_w = (env.pipeFd (st.pipes + i)).2) ∧
        (0 < i → d.pipe_fd_r = (env.pipeFd (st.pipes + (i - 1))).1) := by
  obtain ⟨buf, hrun, hblen, htake⟩ :=
    pipeLoop_pipeline env pgid cs c0 ((pipeText c0 cs).length + 1) prev st hwf
      (Nat.lt_succ_self _) hlen
  have hq : (st.cmd_buf.take st.cmd_num).length = st.cmd_num := by
    rw [List.length_take]
    omega
  refine ⟨_, hrun, rfl, rfl, rfl, ?_, ?_⟩
  · have := congrArg (List.take st.cmd_num) htake
    rw [List.take_take, Nat.min_eq_left (by omega), List.take_left' hq] at this
    exact this
  · intro i hi
    obtain ⟨d, hd, h1, h2, h3, -⟩ := stages_getElem? env pgid cs st.pipes
      (slot env st st.cmd_num) c0 i hi
    have hget : buf.get? (st.cmd_num + i) = some d := by
      have h := congrArg (fun l => l[st.cmd_num + i]?) htake
      simp only [List.getElem?_take] at h
      rw [if_pos (by omega), List.getElem?_append_right (by omega), hq,
        Nat.add_sub_cancel_left, hd] at h
      rw [List.get?_eq_getElem?]
      exact h
    refine ⟨d, hget, h1, ?_, ?_, ?_, ?_⟩
    · rw [h2, hblank]
      by_cases hil : i < cs.length
      · simpa [hil] using (hfd (st.pipes + i)).2
      · simp [hil, cmd_st.blank]
    · rw [h3, hblank]
      by_cases hi0 : i = 0
      · simp [hi0, cmd_st.blank]
      · simp only [hi0, if_false]
        constructor
        · intro _
          omega
        · intro _
          exact (hfd _).1
    · intro hil
      rw [h2, if_pos hil]
    · intro hi0
      rw [h3, if_neg (by omega)]
      congr 2
      omega

/-- The segment `a | b` on a cleared slot. -/
theorem parsePipe_pipeline_witness :
    ∃ st', parsePipe sampleEnv 'x' (pipeText ['a'] [['b']]) 0
        { ShellState.init with cmd_buf := [cmd_st.blank] } = .ok st' ∧
      st'.pipes = 0 + 1 ∧
      st'.trace = [] ++ pipeEvents sampleEnv 0 1 ∧
      st'.cmd_num = 0 + 1 ∧
      st'.cmd_buf.take 0 = queue { ShellState.init with cmd_buf := [cmd_st.blank] } ∧
      ∀ i, i ≤ 1 → ∃ d, st'.cmd_buf.get? (0 + i) = some d ∧
        d.args = some (tokens (([['a'], ['b']] : List CStr).getD i [])) ∧
        (d.pipe_fd_w ≠ 0 ↔ i < 1) ∧
        (d.pipe_fd_r ≠ 0 ↔ 0 < i) ∧
        (i < 1 → d.pipe_fd_w = (sampleEnv.pipeFd (0 + i)).2) ∧
        (0 < i → d.pipe_fd_r = (sampleEnv.pipeFd (0 + (i - 1))).1) :=
  parsePipe_pipeline sampleEnv 'x' 0 { ShellState.init with cmd_buf := [cmd_st.blank] }
    ['a'] [['b']] (by decide) (by decide) (by decide)
    (fun k => by constructor <;> simp [sampleEnv] <;> omega)

/-! ## runCommands on foreground descriptors -/

theorem builtinHelper_external {name : CStr} (rest : List CStr) (st : ShellState)
    (h : isExternal name = true) : builtinHelper name rest st = .notBuiltin := by
  unfold isExternal at h
  simp only [Bool.and_eq_true, decide_eq_true_eq] at h
  obtain ⟨⟨⟨⟨-, h1⟩, h2⟩, h3⟩, h4⟩ := h
  unfold builtinHelper
  rw [if_neg h1, if_neg h2, if_neg h3, if_neg h4]

theorem runLoop_foreground (env : Env) (hfork : ∀ k, 0 < env.forkRet k) (n : Nat) :
    ∀ (i : Nat) (st : ShellState),
      (∀ j, i ≤ j → j < i + n → foregroundStage (slot env st j) = true) →
      st.pid_idx = 0 → 0 < st.pid_buf.length →
      ∃ pb : List Int, pb.length = st.pid_buf.length ∧
        runLoop env n i st = .returned { st with
          trace := st.trace ++ foregroundTrace env st.cmd_buf n i st.forks,
          forks := st.forks + n, pid_buf := pb } := by
  induction n with
  | zero =>
    intro i st _ _ _
    exact ⟨st.pid_buf, rfl, by simp [runLoop, foregroundTrace]⟩
  | succ n ih =>
    intro i st hq hidx hpb
    have hi := hq i (Nat.le_refl _) (by omega)
    unfold foregroundStage at hi
    simp only [Bool.and_eq_true, decide_eq_true_eq] at hi
    obtain ⟨hpg, hargs⟩ := hi
    have hpos := hfork st.forks
    cases hA : (slot env st i).args with
    | none => simp [hA] at hargs
    | some l =>
      cases l with
      | nil => simp [hA] at hargs
      | cons name rest =>
        simp only [hA] at hargs
        have hne : name ≠ [] := by
          intro e
          simp [isExternal, e] at hargs
        set pid := env.forkRet st.forks with hpid
        set c := slot env st i with hc
        set st3 : ShellState := { st with
          trace := st.trace ++ stageEvents c i pid, forks := st.forks + 1,
          pid_buf := (st.pid_buf.set 0 pid).set 0 0 } with hst3
        have hq3 : ∀ j, i + 1 ≤ j → j < i + 1 + n → foregroundStage (slot env st3 j) = true := by
          intro j h1 h2
          exact hq j (by omega) (by omega)
        obtain ⟨pb, hpbl, hrun⟩ := ih (i + 1) st3 hq3 hidx (by simpa [hst3] using hpb)
        refine ⟨pb, by simpa [hst3] using hpbl, ?_⟩
        unfold runLoop
        simp only [← hc, hA, if_neg hne, builtinHelper_external rest st hargs, ← hpid,
          if_neg (not_lt.2 (le_of_lt hpos)), if_neg (ne_of_gt hpos), hpg, hidx]
        rw [if_neg (by simp)]
        simp only [removeLoop, getD_set_self _ _ _ hpb, if_true]
        convert hrun using 2
        · simp [hst3, stageEvents, hidx]
        · simp only [hst3, foregroundTrace, ← hc, ← hpid, List.append_assoc, hidx]
          congr 1
          omega

/-- C4, as stated, fails on `cmd1 | cmd2`: the shell waits for the first stage before it
forks the second one. -/
theorem foreground_pipeline_waits_between_forks :
    (myshell sampleEnv (some "cmd1 | cmd2".toList) ShellState.init).state.trace =
        [.pipe 3 4, .fork 0 100, .close 4, .waitpid 100, .fork 1 101, .close 3, .waitpid 101] ∧
      forksPrecedeWaits
        (myshell sampleEnv (some "cmd1 | cmd2".toList) ShellState.init).state.trace = false := by
  decide

/-- C4, amended. On a queue of foreground stages (group id 0, external commands), with no
pid tracked at entry and `fork` succeeding, `runCommands` returns after handling the stages
one after the other: for each stage in queue order it forks, closes the pipe ends of the
descriptor and waits for that child, and only then turns to the next stage. -/
theorem runCommands_foreground_sequential (env : Env) (st : ShellState)
    (hfork : ∀ k, 0 < env.forkRet k)
    (hq : ∀ j, j < st.cmd_num → foregroundStage (slot env st j) = true)
    (hidx : st.pid_idx = 0) (hpb : 0 < st.pid_buf.length) :
    ∃ st', runCommands env st = .returned st' ∧
      st'.trace = st.trace ++ foregroundTrace env st.cmd_buf st.cmd_num 0 st.forks ∧
      st'.forks = st.forks + st.cmd_num := by
  obtain ⟨pb, -, hrun⟩ := runLoop_foreground env hfork st.cmd_num 0 st
    (fun j _ hj => hq j (by omega)) hidx hpb
  exact ⟨_, hrun, rfl, rfl⟩

/-- The queue of `a | b`: fork, close, wait for `a`, then fork, close, wait for `b`. -/
theorem runCommands_foreground_sequential_witness :
    ∃ st', runCommands sampleEnv
        { ShellState.init with
          cmd_buf := [{ cmd_st.blank with args := some [['a']], pipe_fd_w := 4 },
                      { cmd_st.blank with args := some [['b']], pipe_fd_r := 3 }],
          cmd_num := 2 } = .returned st' ∧
      st'.trace = [] ++ foregroundTrace sampleEnv
          [{ cmd_st.blank with args := some [['a']], pipe_fd_w := 4 },
           { cmd_st.blank with args := some [['b']], pipe_fd_r := 3 }] 2 0 0 ∧
      st'.forks = 0 + 2 :=
  runCommands_foreground_sequential sampleEnv
    { ShellState.init with
      cmd_buf := [{ cmd_st.blank with args := some [['a']], pipe_fd_w := 4 },
                  { cmd_st.blank with args := some [['b']], pipe_fd_r := 3 }],
      cmd_num := 2 }
    (fun k => by simp only [sampleEnv]; omega) (by decide) rfl
    (by
      show 0 < (List.replicate CHILD_MAX (0 : Int)).length
      rw [List.length_replicate]
      decide)

/-! ## The parser never forks -/

theorem raise_forks (e : ParseError) (st : ShellState) : (raise e st).state.forks = st.forks := by
  unfold raise
  split <;> rfl

theorem pipeLoop_forks (env : Env) (pgid : Int) (fuel : Nat) :
    ∀ (prev : Char) (s : CStr) (st : ShellState),
      (pipeLoop env pgid fuel prev s st).state.forks = st.forks := by
  induction fuel with
  | zero => intro prev s st; rfl
  | succ n ih =>
    intro prev s st
    unfold pipeLoop
    split
    · dsimp only
      split
      · exact raise_forks _ _
      · split
        · rw [raise_forks]
        · rw [ih]
    · split
      · exact raise_forks _ _
      · rfl

theorem parsePipe_forks (env : Env) (prev : Char) (s : CStr) (pgid : Int) (st : ShellState) :
    (parsePipe env prev s pgid st).state.forks = st.forks :=
  pipeLoop_forks env pgid _ prev s st

theorem bgLoop_forks (env : Env) (fuel : Nat) :
    ∀ (off : Nat) (prev : Char) (s : CStr) (st : ShellState),
      (bgLoop env fuel off prev s st).state.forks = st.forks := by
  induction fuel with
  | zero => intro off prev s st; rfl
  | succ n ih =>
    intro off prev s st
    unfold bgLoop
    split
    · rename_i i _
      dsimp only
      split
      · exact raise_forks _ _
      · have hp := parsePipe_forks env prev (s.take i) (st.pgid_counter + 1)
          { st with pgid_counter := st.pgid_counter + 1,
                    cmd_buf := (realloc env.junk st.cmd_buf (st.cmd_num + 2)).set
                      (st.cmd_num + 1) cmd_st.blank }
        split
        · rename_i st2 h2
          rw [h2] at hp
          split
          · exact hp
          · rw [ih]
            exact hp
        · rename_i r hr
          exact hp
    · have hp := parsePipe_forks env prev s 0 st
      split
      · rename_i st2 h2
        rw [h2] at hp
        exact hp
      · exact hp

theorem semiLoop_forks (env : Env) (fuel : Nat) :
    ∀ (off : Nat) (prev : Char) (s : CStr) (st : ShellState),
      (semiLoop env fuel off prev s st).state.forks = st.forks := by
  induction fuel with
  | zero => intro off prev s st; rfl
  | succ n ih =>
    intro off prev s st
    unfold semiLoop
    split
    · rfl
    · rename_i k tok rest _
      have hb := bgLoop_forks env (tok.length + 1) (off + k) (if k = 0 then prev else ';') tok
        { st with
          cmd_buf := (realloc env.junk st.cmd_buf (st.cmd_num + 1)).set st.cmd_num cmd_st.blank }
      dsimp only
      split
      · rename_i st1 h1
        rw [h1] at hb
        rw [ih]
        exact hb
      · exact hb

/-- The parser calls `fork` on no line, whatever the result of the parse. -/
theorem parseInput_forks (env : Env) (line : CStr) (st : ShellState) :
    (parseInput env line st).state.forks = st.forks :=
  semiLoop_forks env _ 0 env.pre line st

/-! ## Duplicated redirection operators -/

theorem strstr_twice {s : CStr} {c : Char} (h : 2 ≤ s.count c) :
    ∃ i, strstr s c = some i ∧ (strstr (s.drop (i + 1)) c).isSome = true := by
  have hm : c ∈ s := List.count_pos_iff.1 (by omega)
  obtain ⟨a, b, rfl, ha⟩ := List.eq_append_cons_of_mem hm
  refine ⟨a.length, strstr_append_cons ha, ?_⟩
  rw [strstr_isSome_iff]
  have hd : (a ++ c :: b).drop (a.length + 1) = b := by
    rw [show a ++ c :: b = (a ++ [c]) ++ b by simp]
    exact List.drop_left' (by simp)
  rw [hd]
  rw [List.count_append, List.count_cons_self, List.count_eq_zero.2 ha] at h
  exact List.count_pos_iff.1 (by omega)

theorem duplicate_operator_error (prev : Char) (seg : CStr) (command : cmd_st)
    (hne : seg ≠ []) (hdup : 2 ≤ seg.count '>' ∨ 2 ≤ seg.count '<') :
    parseRedirect prev seg command = .error .duplicateRedirect := by
  unfold parseRedirect
  rw [if_neg hne]
  rcases hdup with h | h
  · obtain ⟨i, h1, h2⟩ := strstr_twice h
    simp only [h1, h2, Bool.or_true, if_true]
  · obtain ⟨i, h1, h2⟩ := strstr_twice h
    simp only [h1, h2, Bool.true_or, if_true]

theorem parsePipe_of_no_pipe (env : Env) (prev : Char) (s : CStr) (pgid : Int)
    (st : ShellState) (hp : '|' ∉ s) :
    parsePipe env prev s pgid st =
      match parseRedirect prev s (slot env st st.cmd_num) with
      | .error e => raise e st
      | .ok c => .ok { st with cmd_buf := st.cmd_buf.set st.cmd_num c } := by
  unfold parsePipe pipeLoop
  rw [strstr_of_not_mem hp]

theorem myshell_of_jump (env : Env) (line : CStr) (st st1 : ShellState) (hne : line ≠ [])
    (h : parseInput env line { st with cmd_buf := [cmd_st.blank] } = .jump st1) :
    myshell env (some line) st = .next (cleanup st1) ∧ (cleanup st1).forks = st.forks := by
  have hf := parseInput_forks env line { st with cmd_buf := [cmd_st.blank] }
  rw [h] at hf
  refine ⟨?_, hf⟩
  unfold myshell
  simp only [h, List.length_pos.2 hne, if_true]

/-- C5. A non-empty segment with two or more `>` or two or more `<` makes `parseRedirect`
fail with the error "there may only be one of each redirection character"; no descriptor
is returned, so no field is populated. A line that is such a segment (without `;`, `&`, `|`)
ends its iteration of the read loop with that message as the only new action, the queue
reset and no call of `fork`; and whenever the parse of a line jumps out, the iteration
goes straight to `cleanup` without a call of `fork`. -/
theorem parseRedirect_duplicate (prev : Char) (seg : CStr) (command : cmd_st)
    (hne : seg ≠ []) (hdup : 2 ≤ seg.count '>' ∨ 2 ≤ seg.count '<') :
    parseRedirect prev seg command = .error .duplicateRedirect ∧
      (∀ (env : Env) (st : ShellState), ';' ∉ seg → '&' ∉ seg → '|' ∉ seg →
        myshell env (some seg) st = .next (cleanup { st with
          trace := st.trace ++ [.print ParseError.duplicateRedirect.message] }) ∧
        (myshell env (some seg) st).state.forks = st.forks) ∧
      (∀ (env : Env) (line : CStr) (st st1 : ShellState), line ≠ [] →
        parseInput env line { st with cmd_buf := [cmd_st.blank] } = .jump st1 →
        myshell env (some line) st = .next (cleanup st1) ∧ (cleanup st1).forks = st.forks) := by
  refine ⟨duplicate_operator_error prev seg command hne hdup, ?_,
    fun env line st st1 hl h => myshell_of_jump env line st st1 hl h⟩
  intro env st hsemi hamp hpipe
  obtain ⟨n, hn⟩ : ∃ n, seg.length = n + 1 :=
    ⟨seg.length - 1, by have := List.length_pos.2 hne; omega⟩
  have hparse : parseInput env seg { st with cmd_buf := [cmd_st.blank] } =
      .jump { st with
        cmd_buf := (realloc env.junk [cmd_st.blank] (st.cmd_num + 1)).set st.cmd_num cmd_st.blank,
        trace := st.trace ++ [.print ParseError.duplicateRedirect.message] } := by
    unfold parseInput
    rw [hn]
    unfold semiLoop
    rw [strtok_r_of_not_mem hne hsemi]
    dsimp only
    unfold bgLoop
    rw [bgAmp_of_not_mem hamp, parsePipe_of_no_pipe env _ seg 0 _ hpipe,
      duplicate_operator_error _ seg _ hne hdup]
    rfl
  obtain ⟨h1, -⟩ := myshell_of_jump env seg st _ hne hparse
  rw [h1]
  exact ⟨rfl, rfl⟩

/-- The line `cmd1 > out > out2`. -/
theorem parseRedirect_duplicate_witness :
    parseRedirect 'x' "cmd1 > out > out2".toList cmd_st.blank = .error .duplicateRedirect ∧
      (∀ (env : Env) (st : ShellState), ';' ∉ "cmd1 > out > out2".toList →
        '&' ∉ "cmd1 > out > out2".toList → '|' ∉ "cmd1 > out > out2".toList →
        myshell env (some "cmd1 > out > out2".toList) st = .next (cleanup { st with
          trace := st.trace ++ [.print ParseError.duplicateRedirect.message] }) ∧
        (myshell env (some "cmd1 > out > out2".toList) st).state.forks = st.forks) ∧
      (∀ (env : Env) (line : CStr) (st st1 : ShellState), line ≠ [] →
        parseInput env line { st with cmd_buf := [cmd_st.blank] } = .jump st1 →
        myshell env (some line) st = .next (cleanup st1) ∧ (cleanup st1).forks = st.forks) :=
  parseRedirect_duplicate 'x' "cmd1 > out > out2".toList cmd_st.blank (by decide)
    (Or.inl (by decide))

/-! ## A single output redirection -/

theorem byteBefore_append (prev : Char) (a r : CStr) (ha : a ≠ []) :
    byteBefore prev (a ++ r) a.length = a.getLast ha := by
  have hlen : 0 < a.length := List.length_pos.2 ha
  unfold byteBefore
  rw [if_neg (by omega), List.getD_eq_getElem _ _ (by simp; omega),
    List.getElem_append_left (by omega), List.getLast_eq_getElem]

theorem drop_append_cons (a r : CStr) (x : Char) : (a ++ x :: r).drop (a.length + 1) = r := by
  rw [show a ++ x :: r = (a ++ [x]) ++ r by simp]
  exact List.drop_left' (by simp)

theorem trimWhitespace_append (sp f : CStr) (hsp : ∀ x ∈ sp, isspace x = true)
    (hfs : ∀ x ∈ f, isspace x = false) : trimWhitespace (sp ++ f) = f := by
  unfold trimWhitespace
  induction sp with
  | nil =>
    cases f with
    | nil => rfl
    | cons y t =>
      rw [List.nil_append, List.dropWhile_cons_of_neg]
      simp [hfs y (List.mem_cons_self _ _)]
  | cons x t ih =>
    rw [List.cons_append, List.dropWhile_cons_of_pos (hsp x (List.mem_cons_self _ _))]
    exact ih (fun y hy => hsp y (List.mem_cons_of_mem _ hy))

theorem fileName_operand (sp f : CStr) (hsp : ∀ x ∈ sp, isspace x = true) (hf : f ≠ [])
    (hfs : ∀ x ∈ f, isspace x = false) :
    trimWhitespace (if (sp ++ f).getLast? = some ' ' then (sp ++ f).dropLast else sp ++ f) =
      f := by
  have hlast : (sp ++ f).getLast? ≠ some ' ' := by
    rw [List.getLast?_append_of_ne_nil _ hf, List.getLast?_eq_getLast _ hf]
    intro h
    have := hfs _ (List.getLast_mem hf)
    rw [Option.some.inj h] at this
    simp [isspace] at this
  rw [if_neg hlast]
  exact trimWhitespace_append sp f hsp hfs

/-- C7, at the line `ls | ` and at the stage ` > out`: the command text holds no token, the
check `cmd_len == 0` does not fire because the text is not empty, and a descriptor with an
empty argument vector is produced and queued. -/
theorem parse_queues_empty_arguments :
    (parseInput sampleEnv "ls | ".toList ShellState.init).queue?.map
        (fun q => q.map (fun c => c.args)) = some [some [['l', 's']], some []] ∧
      parseRedirect 'x' " > out".toList cmd_st.blank =
        .ok { cmd_st.blank with args := some [], file_out := some ['o', 'u', 't'] } := by
  decide

/-- C8, at the line of one space: the parse queues one descriptor without arguments
(`cmd_num = 1`) and `runCommands` reads `*(args[0])` through a NULL pointer. -/
theorem myshell_blank_line_crashes :
    (parseInput sampleEnv [' '] { ShellState.init with cmd_buf := [cmd_st.blank] }).queue? =
        some [{ cmd_st.blank with args := some [] }] ∧
      myshell sampleEnv (some [' ']) ShellState.init =
        .crash { ShellState.init with
          cmd_buf := [{ cmd_st.blank with args := some [] }], cmd_num := 1 } := by
  constructor
  · decide
  · rfl

/-- C9, at the stages `cmd > ` and `cmd < `: the operand is one space, its length is not 0,
no error is raised and the descriptor stores the empty file name. -/
theorem parseRedirect_stores_empty_file_name :
    parseRedirect 'x' "cmd > ".toList cmd_st.blank =
        .ok { cmd_st.blank with args := some [['c', 'm', 'd']], file_out := some [] } ∧
      parseRedirect 'x' "cmd < ".toList cmd_st.blank =
        .ok { cmd_st.blank with args := some [['c', 'm', 'd']], file_in := some [] } := by
  decide

/-! ## Statements of background operands -/

theorem getD_realloc (junk : Nat → cmd_st) (buf : List cmd_st) (d : cmd_st) {i n : Nat}
    (hi : i < buf.length) (hn : i < n) : (realloc junk buf n).getD i d = buf.getD i d := by
  unfold realloc
  rw [List.getD_eq_getElem?_getD, List.getD_eq_getElem?_getD,
    List.getElem?_append_left (by simp; omega), List.getElem?_take, if_pos hn]

theorem getD_set_of_ne {α : Type} (l : List α) (x d : α) {i j : Nat} (h : i ≠ j) :
    (l.set i x).getD j d = l.getD j d := by
  rw [List.getD_eq_getElem?_getD, List.getD_eq_getElem?_getD, List.getElem?_set_ne h]

theorem bgText_head (cs : List CStr) (last : CStr) (hcs : ∀ c ∈ cs, wellFormedCommand c = true)
    (hlast : last = [] ∨ wellFormedCommand last = true) :
    (bgText cs last).head? ≠ some '>' := by
  have key : ∀ c : CStr, wellFormedCommand c = true → ∀ r : CStr, (c ++ r).head? ≠ some '>' := by
    intro c hc r
    obtain ⟨x, t, rfl⟩ := List.exists_cons_of_ne_nil (wellFormed_ne_nil hc)
    intro h
    have hx : x = '>' := by simpa using h
    exact plainText_not_mem (wellFormed_plain hc) (c := '>') rfl (hx ▸ List.mem_cons_self _ _)
  cases cs with
  | nil =>
    rcases hlast with rfl | h
    · simp [bgText]
    · simpa [bgText] using key last h []
  | cons c cs => exact key c (hcs c (List.mem_cons_self _ _)) _

theorem bgAmp_append_cons (c r : CStr) (hc : '&' ∉ c) (hr : r.head? ≠ some '>') :
    bgAmp (c ++ '&' :: r) = some c.length := by
  unfold bgAmp
  rw [strstr_append_cons hc]
  have : (c ++ '&' :: r).get? (c.length + 1) = r.head? := by
    rw [List.get?_eq_getElem?, List.getElem?_append_right (by omega)]
    cases r <;> simp
  simp only [this, if_neg hr]

theorem bg_operand (env : Env) (prev : Char) (c : CStr) (p : Int) (st : ShellState)
    (hwf : wellFormedCommand c = true) (hlen : st.cmd_num < st.cmd_buf.length)
    (hblank : slot env st st.cmd_num = cmd_st.blank) :
    ∃ (st2 : ShellState) (buf3 : List cmd_st),
      parsePipe env prev c p { st with
          pgid_counter := p,
          cmd_buf := (realloc env.junk st.cmd_buf (st.cmd_num + 2)).set (st.cmd_num + 1)
            cmd_st.blank } = .ok st2 ∧
        tagAndAdvance env p st2 =
          { st with pgid_counter := p, cmd_buf := buf3, cmd_num := st.cmd_num + 1 } ∧
        st.cmd_num + 1 < buf3.length ∧
        buf3.getD (st.cmd_num + 1) (env.junk (st.cmd_num + 1)) = cmd_st.blank ∧
        buf3.take (st.cmd_num + 1) =
          st.cmd_buf.take st.cmd_num ++ [{ cmd_st.blank with args := some (tokens c), pgid := p }] := by
  have hp := wellFormed_plain hwf
  set buf1 := (realloc env.junk st.cmd_buf (st.cmd_num + 2)).set (st.cmd_num + 1) cmd_st.blank
    with hbuf1
  have hl1 : buf1.length = st.cmd_num + 2 := by simp [hbuf1, realloc_length]
  have hslot1 : buf1.getD st.cmd_num (env.junk st.cmd_num) = cmd_st.blank := by
    rw [hbuf1, getD_set_of_ne _ _ _ (by omega), getD_realloc _ _ _ hlen (by omega)]
    exact hblank
  set D : cmd_st := { cmd_st.blank with args := some (tokens c) } with hD
  set D' : cmd_st := { cmd_st.blank with args := some (tokens c), pgid := p } with hD'
  refine ⟨_, (buf1.set st.cmd_num D).set st.cmd_num D',
    parsePipe_plain env prev c p _ (wellFormed_ne_nil hwf) (plainText_not_mem hp rfl)
      (plainText_not_mem hp rfl) (plainText_not_mem hp rfl), ?_, ?_, ?_, ?_⟩
  · simp only [tagAndAdvance, slot, hslot1,
      getD_set_self _ _ _ (show st.cmd_num < buf1.length by omega)]
  · simp [hl1]
  · rw [getD_set_of_ne _ _ _ (by omega), getD_set_of_ne _ _ _ (by omega), hbuf1]
    exact getD_set_self _ _ _ (by rw [realloc_length]; omega)
  · rw [take_succ_set _ _ (by simp [hl1]), take_set_of_le _ _ (Nat.le_refl _), hbuf1,
      take_set_of_le _ _ (Nat.le_succ _), take_realloc _ _ (by omega) (le_of_lt hlen)]

theorem bgLoop_statement (env : Env) (cs : List CStr) :
    ∀ (last : CStr) (fuel off : Nat) (prev : Char) (st : ShellState),
      (∀ c ∈ cs, wellFormedCommand c = true) →
      (last = [] ∨ wellFormedCommand last = true) →
      bgText cs last ≠ [] →
      (bgText cs last).length < fuel →
      st.cmd_num < st.cmd_buf.length →
      slot env st st.cmd_num = cmd_st.blank →
      ∃ buf : List cmd_st,
        bgLoop env fuel off prev (bgText cs last) st = .ok { st with
          cmd_buf := buf, cmd_num := st.cmd_num + cs.length + (finalQueue last).length,
          pgid_counter := st.pgid_counter + cs.length } ∧
        buf.take (st.cmd_num + cs.length + (finalQueue last).length) =
          st.cmd_buf.take st.cmd_num ++ (backgroundQueue st.pgid_counter cs ++ finalQueue last) := by
  induction cs with
  | nil =>
    intro last fuel off prev st _ hlast hne hfuel hlen hblank
    have hl : last ≠ [] := hne
    have hwf : wellFormedCommand last = true := hlast.resolve_left hl
    have hp := wellFormed_plain hwf
    obtain ⟨n, rfl⟩ : ∃ n, fuel = n + 1 := ⟨fuel - 1, by omega⟩
    refine ⟨(st.cmd_buf.set st.cmd_num { cmd_st.blank with args := some (tokens last) }).set
      st.cmd_num { cmd_st.blank with args := some (tokens last) }, ?_, ?_⟩
    · unfold bgLoop
      simp only [bgText]
      rw [bgAmp_of_not_mem (plainText_not_mem hp rfl),
        parsePipe_plain env prev last 0 st hl (plainText_not_mem hp rfl)
          (plainText_not_mem hp rfl) (plainText_not_mem hp rfl)]
      rw [hblank]
      simp only [tagAndAdvance, slot, getD_set_self _ _ _ hlen, finalQueue, if_neg hl,
        List.length_nil, List.length_singleton, Nat.add_zero, Nat.cast_zero, add_zero]
      rfl
    · simp only [finalQueue, if_neg hl, List.length_nil, List.length_singleton, Nat.add_zero,
        backgroundQueue, List.nil_append]
      rw [take_succ_set _ _ (by simpa using hlen), take_set_of_le _ _ (Nat.le_refl _)]
  | cons c cs ih =>
    intro last fuel off prev st hcs hlast hne hfuel hlen hblank
    have h0 := hcs c (List.mem_cons_self _ _)
    have hp := wellFormed_plain h0
    have hc0 := wellFormed_ne_nil h0
    have hrest : ∀ x ∈ cs, wellFormedCommand x = true :=
      fun x hx => hcs x (List.mem_cons_of_mem _ hx)
    have hamp : '&' ∉ c := plainText_not_mem hp rfl
    have hc0len : 0 < c.length := List.length_pos.2 hc0
    obtain ⟨n, rfl⟩ : ∃ n, fuel = n + 1 := ⟨fuel - 1, by omega⟩
    have htext : bgText (c :: cs) last = c ++ '&' :: bgText cs last := rfl
    have hfuel1 : (bgText cs last).length < n := by
      rw [htext, List.length_append, List.length_cons] at hfuel
      omega
    have herr : (off + c.length = 0 ||
        ((c ++ '&' :: bgText cs last).head? = some ' ' &&
          (trimWhitespace (c ++ '&' :: bgText cs last)).head? = some '&')) = false := by
      obtain ⟨x, hx, -, hsp⟩ := wellFormed_visible h0
      obtain ⟨y, hy, hhead⟩ := trim_head_mem c ('&' :: bgText cs last) ⟨x, hx, hsp⟩
      have hy' : y ≠ '&' := fun e => hamp (e ▸ hy)
      have e1 : (off + c.length = 0) = False := eq_false (by omega)
      simp [hhead, e1, hy']
    obtain ⟨st2, buf3, hpp, htag, hl3, hslot3, htake3⟩ :=
      bg_operand env prev c (st.pgid_counter + 1) st h0 hlen hblank
    have hstep : bgLoop env (n + 1) off prev (bgText (c :: cs) last) st =
        if bgText cs last = [] then
          .ok { st with pgid_counter := st.pgid_counter + 1, cmd_buf := buf3,
                        cmd_num := st.cmd_num + 1 }
        else
          bgLoop env n (off + c.length + 1) '\x00' (bgText cs last)
            { st with pgid_counter := st.pgid_counter + 1, cmd_buf := buf3,
                      cmd_num := st.cmd_num + 1 } := by
      conv_lhs => unfold bgLoop
      rw [htext, bgAmp_append_cons c _ hamp (bgText_head cs last hrest hlast)]
      simp only [herr, Bool.false_eq_true, if_false, List.take_left' rfl, drop_append_cons, hpp,
        htag]
    by_cases hR : bgText cs last = []
    · have hcs0 : cs = [] := by
        cases cs with
        | nil => rfl
        | cons d ds => simp [bgText] at hR
      subst hcs0
      have hl0 : last = [] := hR
      subst hl0
      refine ⟨buf3, ?_, ?_⟩
      · rw [hstep, if_pos hR]
        simp [finalQueue]
      · simpa [finalQueue, backgroundQueue] using htake3
    · obtain ⟨buf, hrun, htake⟩ := ih last n (off + c.length + 1) '\x00'
        { st with pgid_counter := st.pgid_counter + 1, cmd_buf := buf3,
                  cmd_num := st.cmd_num + 1 }
        hrest hlast hR hfuel1 hl3 hslot3
      refine ⟨buf, ?_, ?_⟩
      · rw [hstep, if_neg hR, hrun]
        simp only [List.length_cons, Nat.cast_add, Nat.cast_one]
        congr 2 <;> omega
      · simp only [List.length_cons] at htake ⊢
        rw [show st.cmd_num + (cs.length + 1) + (finalQueue last).length =
          st.cmd_num + 1 + cs.length + (finalQueue last).length by omega, htake, htake3]
        simp [backgroundQueue]

theorem not_mem_bgText (x : Char) (hx : x ≠ '&') (cs : List CStr) (last : CStr)
    (hcs : ∀ c ∈ cs, x ∉ c) (hlast : x ∉ last) : x ∉ bgText cs last := by
  induction cs with
  | nil => exact hlast
  | cons c cs ih =>
    simp only [bgText, List.mem_append, List.mem_cons, not_or]
    exact ⟨hcs c (List.mem_cons_self _ _), hx,
      ih (fun d hd => hcs d (List.mem_cons_of_mem _ hd))⟩

theorem backgroundQueue_length (p : Int) (cs : List CStr) :
    (backgroundQueue p cs).length = cs.length := by
  induction cs generalizing p with
  | nil => rfl
  | cons c cs ih => simp [backgroundQueue, ih]

theorem backgroundQueue_getElem? (cs : List CStr) :
    ∀ (p : Int) (i : Nat), i < cs.length →
      (backgroundQueue p cs)[i]? =
        some { cmd_st.blank with args := some (tokens (cs.getD i [])), pgid := p + (i + 1) } := by
  induction cs with
  | nil => intro p i hi; simp at hi
  | cons c cs ih =>
    intro p i hi
    cases i with
    | zero => simp [backgroundQueue]
    | succ j =>
      have hj : j < cs.length := by simpa using hi
      simp only [backgroundQueue, List.getElem?_cons_succ, ih (p + 1) j hj, List.getD_cons_succ]
      congr 2
      push_cast
      ring

/-- C10. A pipe-free statement `c1&c2&...&ck&c` of well-formed commands, parsed on a fresh
state (empty queue, counter 0), returns normally with the counter at `k`; the queue holds,
in source order, the `k` background operands, the `i`-th (from 1) with the tokens of `ci`
and the group id `i`, followed by the final operand with group id 0. When the statement
ends with `&` (no final operand) the queue holds exactly the `k` background descriptors,
none with group id 0. -/
theorem parseInput_background_statement (env : Env) (st : ShellState) (cs : List CStr)
    (last : CStr) (hcs : ∀ c ∈ cs, wellFormedCommand c = true)
    (hlast : last = [] ∨ wellFormedCommand last = true)
    (hfresh : st.cmd_num = 0) (hctr : st.pgid_counter = 0) :
    ∃ st', parseInput env (bgText cs last) st = .ok st' ∧
      st'.pgid_counter = cs.length ∧
      (∀ i, i < cs.length → (queue st').get? i =
        some { cmd_st.blank with args := some (tokens (cs.getD i [])), pgid := (i : Int) + 1 }) ∧
      (last ≠ [] → st'.cmd_num = cs.length + 1 ∧
        (queue st').get? cs.length =
          some { cmd_st.blank with args := some (tokens last), pgid := 0 }) ∧
      (last = [] → st'.cmd_num = cs.length ∧ ∀ d ∈ queue st', d.pgid ≠ 0) := by
  by_cases hne : bgText cs last = []
  · have hcs0 : cs = [] := by
      cases cs with
      | nil => rfl
      | cons d ds => simp [bgText] at hne
    subst hcs0
    have hl0 : last = [] := hne
    subst hl0
    refine ⟨st, ?_, by simpa using hctr, by simp, by simp, ?_⟩
    · simp [parseInput, bgText, semiLoop, strtok_r_nil]
    · intro _
      refine ⟨by simpa using hfresh, ?_⟩
      simp [queue, hfresh]
  · have hplain : ∀ c ∈ cs, ';' ∉ c := fun c hc =>
      plainText_not_mem (wellFormed_plain (hcs c hc)) rfl
    have hlastp : ';' ∉ last := by
      rcases hlast with rfl | h
      · simp
      · exact plainText_not_mem (wellFormed_plain h) rfl
    have hsemi : ';' ∉ bgText cs last := not_mem_bgText ';' (by decide) cs last hplain hlastp
    obtain ⟨n, hn⟩ : ∃ n, (bgText cs last).length = n + 1 :=
      ⟨(bgText cs last).length - 1, by have := List.length_pos.2 hne; omega⟩
    obtain ⟨st0, hst0⟩ : ∃ st0 : ShellState, st0 = { st with
      cmd_buf := (realloc env.junk st.cmd_buf (st.cmd_num + 1)).set st.cmd_num cmd_st.blank } :=
      ⟨_, rfl⟩
    have hbuf0 : st0.cmd_buf = [cmd_st.blank] := by
      simp only [hst0, hfresh]
      rw [realloc_set_last env.junk st.cmd_buf 0 _ (Nat.zero_le _)]
      simp
    have hcn : st0.cmd_num = 0 := by rw [hst0]; exact hfresh
    have hpc : st0.pgid_counter = 0 := by rw [hst0]; exact hctr
    obtain ⟨buf, hrun, htake⟩ := bgLoop_statement env cs last ((bgText cs last).length + 1) 0
      env.pre st0 hcs hlast hne (Nat.lt_succ_self _) (by rw [hcn, hbuf0]; simp)
      (by unfold slot; rw [hcn, hbuf0]; rfl)
    have hq : buf.take (cs.length + (finalQueue last).length) =
        backgroundQueue 0 cs ++ finalQueue last := by
      have := htake
      rw [hcn, hpc, hbuf0] at this
      simpa using this
    rw [hcn, hpc] at hrun
    refine ⟨{ st0 with cmd_buf := buf,
                       cmd_num := 0 + cs.length + (finalQueue last).length,
                       pgid_counter := 0 + cs.length }, ?_, ?_, ?_, ?_, ?_⟩
    · unfold parseInput
      rw [hn]
      unfold semiLoop
      rw [strtok_r_of_not_mem hne hsemi]
      simp only [Nat.add_zero, if_true, ← hst0, hrun]
      simp [semiLoop, strtok_r_nil]
    · simp
    · intro i hi
      simp only [queue, Nat.zero_add, hq, List.get?_eq_getElem?]
      rw [List.getElem?_append_left (by rw [backgroundQueue_length]; exact hi),
        backgroundQueue_getElem? cs 0 i hi]
      simp
    · intro hl
      simp only [queue, Nat.zero_add, hq, List.get?_eq_getElem?]
      refine ⟨by simp [finalQueue, hl], ?_⟩
      rw [List.getElem?_append_right (by rw [backgroundQueue_length]), backgroundQueue_length]
      simp [finalQueue, hl, cmd_st.blank]
    · intro hl
      simp only [queue, Nat.zero_add, hq]
      refine ⟨by simp [finalQueue, hl], ?_⟩
      intro d hd
      simp only [finalQueue, hl, if_true, List.append_nil] at hd
      obtain ⟨i, hi, hdi⟩ := List.getElem_of_mem hd
      have hi' : i < cs.length := by rw [backgroundQueue_length] at hi; exact hi
      have := backgroundQueue_getElem? cs 0 i hi'
      rw [List.getElem?_eq_getElem hi, hdi] at this
      rw [Option.some.inj this]
      simp only [zero_add]
      omega

/-- The statements `a & b & c` and `a & b &` (written without blanks). -/
theorem parseInput_background_statement_witness :
    (∃ st', parseInput sampleEnv (bgText [['a'], ['b']] ['c']) ShellState.init = .ok st' ∧
      st'.pgid_counter = ([['a'], ['b']] : List CStr).length ∧
      (∀ i, i < ([['a'], ['b']] : List CStr).length → (queue st').get? i =
        some { cmd_st.blank with
          args := some (tokens (([['a'], ['b']] : List CStr).getD i [])),
          pgid := (i : Int) + 1 }) ∧
      ((['c'] : CStr) ≠ [] → st'.cmd_num = ([['a'], ['b']] : List CStr).length + 1 ∧
        (queue st').get? ([['a'], ['b']] : List CStr).length =
          some { cmd_st.blank with args := some (tokens ['c']), pgid := 0 }) ∧
      ((['c'] : CStr) = [] → st'.cmd_num = ([['a'], ['b']] : List CStr).length ∧
        ∀ d ∈ queue st', d.pgid ≠ 0)) ∧
    (∃ st', parseInput sampleEnv (bgText [['a'], ['b']] []) ShellState.init = .ok st' ∧
      st'.pgid_counter = ([['a'], ['b']] : List CStr).length ∧
      (∀ i, i < ([['a'], ['b']] : List CStr).length → (queue st').get? i =
        some { cmd_st.blank with
          args := some (tokens (([['a'], ['b']] : List CStr).getD i [])),
          pgid := (i : Int) + 1 }) ∧
      (([] : CStr) ≠ [] → st'.cmd_num = ([['a'], ['b']] : List CStr).length + 1 ∧
        (queue st').get? ([['a'], ['b']] : List CStr).length =
          some { cmd_st.blank with args := some (tokens []), pgid := 0 }) ∧
      (([] : CStr) = [] → st'.cmd_num = ([['a'], ['b']] : List CStr).length ∧
        ∀ d ∈ queue st', d.pgid ≠ 0)) :=
  ⟨parseInput_background_statement sampleEnv ShellState.init [['a'], ['b']] ['c']
      (by decide) (Or.inr (by decide)) rfl rfl,
    parseInput_background_statement sampleEnv ShellState.init [['a'], ['b']] []
      (by decide) (Or.inl rfl) rfl rfl⟩

/-! ## The loops of the parser end within their bound -/

theorem raise_ne_fuel (e : ParseError) (st st' : ShellState) : raise e st ≠ .fuel st' := by
  unfold raise
  split <;> simp

theorem pipeLoop_ne_fuel (env : Env) (pgid : Int) (fuel : Nat) :
    ∀ (prev : Char) (s : CStr) (st st' : ShellState), s.length < fuel →
      pipeLoop env pgid fuel prev s st ≠ .fuel st' := by
  induction fuel with
  | zero => intro prev s st st' h; omega
  | succ n ih =>
    intro prev s st st' h
    unfold pipeLoop
    split
    · rename_i i hi
      have hlt := (strstr_some_lt hi).1
      dsimp only
      split
      · exact raise_ne_fuel _ _ _
      · split
        · exact raise_ne_fuel _ _ _
        · exact ih _ _ _ _ (by rw [List.length_drop]; omega)
    · split
      · exact raise_ne_fuel _ _ _
      · simp

theorem parsePipe_ne_fuel (env : Env) (prev : Char) (s : CStr) (pgid : Int)
    (st st' : ShellState) : parsePipe env prev s pgid st ≠ .fuel st' :=
  pipeLoop_ne_fuel env pgid _ prev s st st' (Nat.lt_succ_self _)

theorem bgAmp_some_lt {s : CStr} {i : Nat} (h : bgAmp s = some i) : i < s.length := by
  unfold bgAmp at h
  split at h
  · rename_i j hj
    split at h
    · simp at h
    · simp only [Option.some.injEq] at h
      exact h ▸ (strstr_some_lt hj).1
  · simp at h

theorem bgLoop_ne_fuel (env : Env) (fuel : Nat) :
    ∀ (off : Nat) (prev : Char) (s : CStr) (st st' : ShellState), s.length < fuel →
      bgLoop env fuel off prev s st ≠ .fuel st' := by
  induction fuel with
  | zero => intro off prev s st st' h; omega
  | succ n ih =>
    intro off prev s st st' h
    unfold bgLoop
    split
    · rename_i i hi
      have hlt := bgAmp_some_lt hi
      dsimp only
      split
      · exact raise_ne_fuel _ _ _
      · split
        · split
          · simp
          · exact ih _ _ _ _ _ (by rw [List.length_drop]; omega)
        · rename_i r hr hnot
          intro hf
          exact parsePipe_ne_fuel _ _ _ _ _ _ hf
    · split
      · simp
      · rename_i r hr hnot
        intro hf
        exact parsePipe_ne_fuel _ _ _ _ _ _ hf

theorem strtok_r_length {s tok rest : CStr} {k : Nat} (h : strtok_r s = some (k, tok, rest)) :
    rest.length < s.length := by
  unfold strtok_r at h
  dsimp only at h
  split_ifs at h with h1
  simp only [Option.some.injEq, Prod.mk.injEq] at h
  obtain ⟨-, -, rfl⟩ := h
  have h2 : (List.drop (s.takeWhile (fun c => decide (c = ';'))).length s).length ≤ s.length := by
    rw [List.length_drop]
    omega
  have h3 := (List.dropWhile_sublist (l := List.drop
    (s.takeWhile (fun c => decide (c = ';'))).length s) (fun c => decide (c ≠ ';'))).length_le
  have h4 := List.length_pos.2 h1
  rw [List.length_drop]
  omega

theorem semiLoop_ne_fuel (env : Env) (fuel : Nat) :
    ∀ (off : Nat) (prev : Char) (s : CStr) (st st' : ShellState), s.length < fuel →
      semiLoop env fuel off prev s st ≠ .fuel st' := by
  induction fuel with
  | zero => intro off prev s st st' h; omega
  | succ n ih =>
    intro off prev s st st' h
    unfold semiLoop
    split
    · simp
    · rename_i k tok rest hk
      have hlt := strtok_r_length hk
      dsimp only
      split
      · exact ih _ _ _ _ _ (by omega)
      · rename_i r hr hnot
        intro hf
        exact bgLoop_ne_fuel _ _ _ _ _ _ _ (Nat.lt_succ_self _) hf

/-- The bound given to the loops of the parser is never exhausted: `parseInput` returns,
jumps or crashes on every line. -/
theorem parseInput_ne_fuel (env : Env) (line : CStr) (st st' : ShellState) :
    parseInput env line st ≠ .fuel st' :=
  semiLoop_ne_fuel env _ 0 env.pre line st st' (Nat.lt_succ_self _)

/-! ## The interrupt path -/

/-- C13. From every shell state, once the interrupt handler and then the reset at the top
of the read loop (`cleanup`) have run, every slot of `pid_buf` is 0, `pid_idx = 0`, the
command queue is empty (`cmd_num = 0`) and `pgid_counter` and `pgid_curr` are 0. -/
theorem handler_then_reset_clears (env : Env) (st : ShellState) :
    (cleanup (handler env st)).pid_buf = List.replicate CHILD_MAX 0 ∧
      (∀ p ∈ (cleanup (handler env st)).pid_buf, p = 0) ∧
      (cleanup (handler env st)).pid_idx = 0 ∧
      (cleanup (handler env st)).cmd_num = 0 ∧
      queue (cleanup (handler env st)) = [] ∧
      (cleanup (handler env st)).pgid_counter = 0 ∧
      (cleanup (handler env st)).pgid_curr = 0 := by
  refine ⟨rfl, ?_, rfl, rfl, rfl, rfl, rfl⟩
  intro p hp
  exact List.eq_of_mem_replicate hp

/-! ## The echo builtin -/

theorem printed_append (a b : List Event) : printed (a ++ b) = printed a ++ printed b := by
  induction a with
  | nil => rfl
  | cons e t ih => cases e <;> simp [printed, ih]

theorem printed_echo (args : List CStr) :
    printed (args.map (fun t => Event.print (String.mk t ++ " "))) =
      (args.map (fun t => t ++ [' '])).flatten := by
  induction args with
  | nil => rfl
  | cons a t ih => simp [printed, ih, String.data_append]

/-- C15. For every argument list `a1 ... an` (also the empty one) after `echo`, the builtin
reports the command as handled, its only actions are calls of `printf`, and the bytes they
write are `a1`, one space, ..., `an`, one space, and a newline. -/
theorem builtinHelper_echo (args : List CStr) (st : ShellState) :
    ∃ ev : List Event,
      builtinHelper "echo".toList args st = .handled { st with trace := st.trace ++ ev } ∧
      (∀ e ∈ ev, ∃ s, e = Event.print s) ∧
      printed ev = (args.map (fun t => t ++ [' '])).flatten ++ ['\n'] ∧
      printed (st.trace ++ ev) =
        printed st.trace ++ ((args.map (fun t => t ++ [' '])).flatten ++ ['\n']) := by
  have hp : printed (args.map (fun t => Event.print (String.mk t ++ " ")) ++ [.print "\n"]) =
      (args.map (fun t => t ++ [' '])).flatten ++ ['\n'] := by
    rw [printed_append, printed_echo]
    rfl
  refine ⟨args.map (fun t => Event.print (String.mk t ++ " ")) ++ [.print "\n"], ?_, ?_, hp, ?_⟩
  · simp [builtinHelper, List.append_assoc]
  · intro e he
    rcases List.mem_append.1 he with h | h
    · obtain ⟨t, -, rfl⟩ := List.mem_map.1 h
      exact ⟨_, rfl⟩
    · exact ⟨"\n", by simpa using h⟩
  · rw [printed_append, hp]

/-! ## The tokenizer -/

theorem splitOnP_no_sep (p : Char → Bool) (l : CStr) :
    ∀ t ∈ l.splitOnP p, ∀ c ∈ t, p c = false := by
  induction l with
  | nil => simp
  | cons x xs ih =>
    rw [List.splitOnP_cons]
    by_cases hx : p x = true
    · simp only [hx, if_true]
      intro t ht
      rcases List.mem_cons.1 ht with rfl | ht
      · simp
      · exact ih t ht
    · simp only [hx, if_false]
      obtain ⟨h, t', hsp⟩ := List.exists_cons_of_ne_nil (List.splitOnP_ne_nil p xs)
      rw [hsp] at ih ⊢
      intro t ht c hc
      rw [List.modifyHead_cons] at ht
      rcases List.mem_cons.1 ht with ht | ht
      · rw [ht] at hc
        rcases List.mem_cons.1 hc with hcx | hc
        · rw [hcx]
          simpa using hx
        · exact ih h (List.mem_cons_self _ _) c hc
      · exact ih t (List.mem_cons_of_mem _ ht) c hc

theorem tokens_flatten (l : CStr) : (tokens l).flatten = l.filter (fun c => !isDelim c) := by
  induction l with
  | nil => rfl
  | cons x xs ih =>
    unfold tokens at ih ⊢
    rw [List.splitOnP_cons]
    by_cases hx : isDelim x = true
    · simp only [hx, if_true]
      rw [List.filter_cons_of_neg (by simp), List.filter_cons_of_neg (by simp [hx])]
      exact ih
    · have hx' : isDelim x = false := by simpa using hx
      simp only [hx', Bool.false_eq_true, if_false]
      obtain ⟨h, t', hsp⟩ := List.exists_cons_of_ne_nil (List.splitOnP_ne_nil isDelim xs)
      rw [hsp] at ih ⊢
      rw [List.modifyHead_cons, List.filter_cons_of_pos (by simp),
        List.filter_cons_of_pos (by simp [hx']), List.flatten_cons, List.cons_append, ← ih]
      congr 1
      by_cases hh : h = []
      · subst hh
        simp
      · rw [List.filter_cons_of_pos (by simpa using hh), List.flatten_cons]

/-- C16. For every input buffer the tokens returned by `split` are non-empty and hold no
delimiter (space, tab, CR, LF, bell); they are the maximal delimiter-free runs of the input
in their original order (the pieces between delimiters, the empty ones left out), so their
concatenation is the input with the delimiters removed; an input made only of delimiters
gives the empty vector. -/
theorem split_spec (input : CStr) :
    (∀ t ∈ split input, t ≠ [] ∧ ∀ c ∈ t, isDelim c = false) ∧
      split input = (input.splitOnP isDelim).filter (fun t => !t.isEmpty) ∧
      (split input).flatten = input.filter (fun c => !isDelim c) ∧
      ((∀ c ∈ input, isDelim c = true) → split input = []) := by
  have hmem : ∀ t ∈ split input, t ≠ [] ∧ ∀ c ∈ t, isDelim c = false := by
    intro t ht
    rw [split_eq_tokens] at ht
    unfold tokens at ht
    obtain ⟨h1, h2⟩ := List.mem_filter.1 ht
    exact ⟨by simpa using h2, splitOnP_no_sep isDelim input t h1⟩
  refine ⟨hmem, split_eq_tokens input, ?_, ?_⟩
  · rw [split_eq_tokens, tokens_flatten]
  · intro hall
    have hf : (split input).flatten = [] := by
      rw [split_eq_tokens, tokens_flatten, List.filter_eq_nil_iff]
      intro c hc
      simp [hall c hc]
    cases hs : split input with
    | nil => rfl
    | cons t ts =>
      have ht := (hmem t (by rw [hs]; exact List.mem_cons_self _ _)).1
      rw [hs, List.flatten_cons] at hf
      exact absurd (List.append_eq_nil.1 hf).1 ht

/-! ## Evaluations -/

/-- C12, while the shell (pid 99) waits for the foreground child 100 of the line
`sleep 100`: the handler compares each tracked pid with `getpid()`, finds none equal and
sends no signal; its only action is the newline. -/
theorem handler_signals_no_tracked_child :
    (handler sampleEnv
        { ShellState.init with
          cmd_buf := [{ cmd_st.blank with args := some ["sleep".toList, "100".toList] }],
          cmd_num := 1, pid_buf := (List.replicate CHILD_MAX 0).set 0 100, pid_idx := 1,
          trace := [.fork 0 100, .waitpid 100], forks := 1 }).trace =
      [.fork 0 100, .waitpid 100, .print "\n"] := by
  decide

/-- C17, at the statement `ls &> out &`: the search stops at the first `&`, which belongs
to `&>`, so the trailing `&` is not taken as an operator; the descriptor keeps group id 0
and the file name is `out &`. -/
theorem parseInput_redirect_then_background :
    (parseInput sampleEnv "ls &> out &".toList ShellState.init).queue? =
      some [{ cmd_st.blank with
        args := some ["ls".toList], file_out := some "out &".toList,
        file_err := some "out &".toList, pgid := 0 }] := by
  decide

/-- C19, at the segments `a |` tab `| b` and tab `| a`: the left operand of a pipe is a tab,
the test `*str_pipe == ' '` does not fire, and the parse succeeds with a descriptor without
arguments queued for the empty operand. -/
theorem parsePipe_tab_operand_accepted :
    (parseInput sampleEnv ['a', ' ', '|', '\t', '|', ' ', 'b'] ShellState.init).queue?.map
        (fun q => q.map (fun c => c.args)) = some [some [['a']], some [], some [['b']]] ∧
      (parseInput sampleEnv ['\t', '|', ' ', 'a'] ShellState.init).queue?.map
        (fun q => q.map (fun c => c.args)) = some [some [], some [['a']]] := by
  decide

/-! ## What the parser does to the outside world -/

theorem pipeEvents_append (env : Env) (k n m : Nat) :
    pipeEvents env k n ++ pipeEvents env (k + n) m = pipeEvents env k (n + m) := by
  unfold pipeEvents
  rw [← List.map_append]
  congr 1
  have := List.range'_append k n m 1
  rw [Nat.one_mul] at this
  rw [this, Nat.add_comm]

theorem pipeEvents_zero (env : Env) (k : Nat) : pipeEvents env k 0 = [] := rfl

theorem parsedTrace_raise (env : Env) (e : ParseError) (st : ShellState) :
    parsedTrace env st (raise e st) := by
  unfold raise
  split
  · exact ⟨0, rfl, by simp [pipeEvents_zero]⟩
  · exact ⟨0, e, rfl, by simp [pipeEvents_zero]⟩

/-- A parse that continues from a state reached by `m` calls of `pipe`. -/
theorem parsedTrace_trans (env : Env) (st mid : ShellState) (r : Parsed) (m : Nat)
    (hp : mid.pipes = st.pipes + m) (ht : mid.trace = st.trace ++ pipeEvents env st.pipes m)
    (h : parsedTrace env mid r) : parsedTrace env st r := by
  cases r with
  | jump s =>
    obtain ⟨n, e, h1, h2⟩ := h
    refine ⟨m + n, e, by rw [h1, hp]; omega, ?_⟩
    rw [h2, ht, hp, List.append_assoc (st.trace), pipeEvents_append]
  | ok s =>
    obtain ⟨n, h1, h2⟩ := h
    refine ⟨m + n, by rw [h1, hp]; omega, ?_⟩
    rw [h2, ht, hp, List.append_assoc, pipeEvents_append]
  | crash s =>
    obtain ⟨n, h1, h2⟩ := h
    refine ⟨m + n, by rw [h1, hp]; omega, ?_⟩
    rw [h2, ht, hp, List.append_assoc, pipeEvents_append]
  | fuel s =>
    obtain ⟨n, h1, h2⟩ := h
    refine ⟨m + n, by rw [h1, hp]; omega, ?_⟩
    rw [h2, ht, hp, List.append_assoc, pipeEvents_append]

theorem pipeLoop_trace (env : Env) (pgid : Int) (fuel : Nat) :
    ∀ (prev : Char) (s : CStr) (st : ShellState),
      parsedTrace env st (pipeLoop env pgid fuel prev s st) := by
  induction fuel with
  | zero => intro prev s st; exact ⟨0, rfl, by simp [pipeEvents_zero]⟩
  | succ n ih =>
    intro prev s st
    unfold pipeLoop
    split
    · dsimp only
      split
      · exact parsedTrace_raise env _ st
      · split
        · exact parsedTrace_trans env st _ _ 1 rfl rfl (parsedTrace_raise env _ _)
        · exact parsedTrace_trans env st _ _ 1 rfl rfl (ih _ _ _)
    · split
      · exact parsedTrace_raise env _ st
      · exact ⟨0, rfl, by simp [pipeEvents_zero]⟩

theorem parsePipe_trace (env : Env) (prev : Char) (s : CStr) (pgid : Int) (st : ShellState) :
    parsedTrace env st (parsePipe env prev s pgid st) :=
  pipeLoop_trace env pgid _ prev s st

theorem bgLoop_trace (env : Env) (fuel : Nat) :
    ∀ (off : Nat) (prev : Char) (s : CStr) (st : ShellState),
      parsedTrace env st (bgLoop env fuel off prev s st) := by
  induction fuel with
  | zero => intro off prev s st; exact ⟨0, rfl, by simp [pipeEvents_zero]⟩
  | succ n ih =>
    intro off prev s st
    unfold bgLoop
    split
    · rename_i i _
      dsimp only
      split
      · exact parsedTrace_raise env _ st
      · have hp : parsedTrace env st (parsePipe env prev (s.take i) (st.pgid_counter + 1)
            { st with pgid_counter := st.pgid_counter + 1,
                      cmd_buf := (realloc env.junk st.cmd_buf (st.cmd_num + 2)).set
                        (st.cmd_num + 1) cmd_st.blank }) :=
          parsePipe_trace env prev (s.take i) (st.pgid_counter + 1) _
        split
        · rename_i st2 h2
          rw [h2] at hp
          obtain ⟨m, hm1, hm2⟩ := hp
          split
          · exact ⟨m, hm1, hm2⟩
          · exact parsedTrace_trans env st _ _ m hm1 hm2 (ih _ _ _ _)
        · exact hp
    · have hp := parsePipe_trace env prev s 0 st
      split
      · rename_i st2 h2
        rw [h2] at hp
        exact hp
      · exact hp

theorem semiLoop_trace (env : Env) (fuel : Nat) :
    ∀ (off : Nat) (prev : Char) (s : CStr) (st : ShellState),
      parsedTrace env st (semiLoop env fuel off prev s st) := by
  induction fuel with
  | zero => intro off prev s st; exact ⟨0, rfl, by simp [pipeEvents_zero]⟩
  | succ n ih =>
    intro off prev s st
    unfold semiLoop
    split
    · exact ⟨0, rfl, by simp [pipeEvents_zero]⟩
    · rename_i k tok rest _
      have hb : parsedTrace env st
          (bgLoop env (tok.length + 1) (off + k) (if k = 0 then prev else ';') tok
            { st with
              cmd_buf := (realloc env.junk st.cmd_buf (st.cmd_num + 1)).set st.cmd_num
                cmd_st.blank }) :=
        bgLoop_trace env _ _ _ _ _
      dsimp only
      split
      · rename_i st1 h1
        rw [h1] at hb
        obtain ⟨m, hm1, hm2⟩ := hb
        exact parsedTrace_trans env st _ _ m hm1 hm2 (ih _ _ _ _)
      · exact hb

/-- All that `parseInput` does to the outside world is to call `pipe` and, when it jumps
out, to print one error message. -/
theorem parseInput_trace (env : Env) (line : CStr) (st : ShellState) :
    parsedTrace env st (parseInput env line st) :=
  semiLoop_trace env _ 0 env.pre line st

/-- C11. When the parse of a line reports a syntax error (it prints a message and jumps
out), wherever in the line that happens, the iteration of the read loop goes on to the next
line without running the executor: all that was done for the line are the calls of `pipe`
made before the error and the one error message, with no fork and no builtin; and the state
with which the next line is read has an empty queue (`cmd_num = 0`), a tracked pid set of
zeros with `pid_idx = 0`, and both group counters at 0. -/
theorem myshell_syntax_error (env : Env) (line : CStr) (st st1 : ShellState) (hne : line ≠ [])
    (h : parseInput env line { st with cmd_buf := [cmd_st.blank] } = .jump st1) :
    myshell env (some line) st = .next (cleanup st1) ∧
      (∃ (n : Nat) (e : ParseError), (cleanup st1).trace =
        st.trace ++ pipeEvents env st.pipes n ++ [.print e.message]) ∧
      (cleanup st1).forks = st.forks ∧
      (cleanup st1).cmd_num = 0 ∧
      queue (cleanup st1) = [] ∧
      (cleanup st1).pid_buf = List.replicate CHILD_MAX 0 ∧
      (cleanup st1).pid_idx = 0 ∧
      (cleanup st1).pgid_counter = 0 ∧
      (cleanup st1).pgid_curr = 0 := by
  have hf := parseInput_forks env line { st with cmd_buf := [cmd_st.blank] }
  have ht := parseInput_trace env line { st with cmd_buf := [cmd_st.blank] }
  rw [h] at hf ht
  obtain ⟨n, e, -, htr⟩ := ht
  refine ⟨?_, ⟨n, e, htr⟩, hf, rfl, rfl, rfl, rfl, rfl, rfl⟩
  unfold myshell
  simp only [h, List.length_pos.2 hne, if_true]

/-- The line `ls | wc ; cat > a > b`: the error comes after a pipeline was parsed. -/
theorem myshell_syntax_error_witness :
    myshell sampleEnv (some "ls | wc ; cat > a > b".toList) ShellState.init =
        .next (cleanup { ShellState.init with
          cmd_buf := [{ cmd_st.blank with args := some [['l', 's']], pipe_fd_w := 4 },
                      { cmd_st.blank with args := some [['w', 'c']], pipe_fd_r := 3 },
                      cmd_st.blank],
          cmd_num := 2,
          trace := [.pipe 3 4, .print ParseError.duplicateRedirect.message],
          pipes := 1 }) ∧
      (∃ (n : Nat) (e : ParseError), (cleanup { ShellState.init with
          cmd_buf := [{ cmd_st.blank with args := some [['l', 's']], pipe_fd_w := 4 },
                      { cmd_st.blank with args := some [['w', 'c']], pipe_fd_r := 3 },
                      cmd_st.blank],
          cmd_num := 2,
          trace := [.pipe 3 4, .print ParseError.duplicateRedirect.message],
          pipes := 1 }).trace =
        ShellState.init.trace ++ pipeEvents sampleEnv ShellState.init.pipes n ++
          [.print e.message]) :=
  let h := myshell_syntax_error sampleEnv "ls | wc ; cat > a > b".toList ShellState.init
    { ShellState.init with
      cmd_buf := [{ cmd_st.blank with args := some [['l', 's']], pipe_fd_w := 4 },
                  { cmd_st.blank with args := some [['w', 'c']], pipe_fd_r := 3 },
                  cmd_st.blank],
      cmd_num := 2,
      trace := [.pipe 3 4, .print ParseError.duplicateRedirect.message],
      pipes := 1 } (by decide) (by rfl)
  ⟨h.1, h.2.1⟩

/-! ## Sequences of plain statements -/

theorem drop_length_takeWhile (p : Char → Bool) (l : CStr) :
    l.drop (l.takeWhile p).length = l.dropWhile p := by
  have h : List.drop (l.takeWhile p).length (l.takeWhile p ++ l.dropWhile p) =
      l.dropWhile p := List.drop_left' rfl
  rwa [List.takeWhile_append_dropWhile] at h

theorem pieces_dropWhile (p : Char → Bool) (s : CStr) :
    ((s.dropWhile p).splitOnP p).filter (fun t => !t.isEmpty) =
      (s.splitOnP p).filter (fun t => !t.isEmpty) := by
  induction s with
  | nil => rfl
  | cons x xs ih =>
    by_cases hx : p x = true
    · rw [List.dropWhile_cons_of_pos hx, ih]
      simp [List.splitOnP_cons, hx]
    · rw [List.dropWhile_cons_of_neg hx]

theorem pieces_unfold (p : Char → Bool) (s : CStr) :
    (s.splitOnP p).filter (fun t => !t.isEmpty) =
      if s.dropWhile p = [] then []
      else (s.dropWhile p).takeWhile (fun c => !p c) ::
        ((((s.dropWhile p).dropWhile (fun c => !p c)).drop 1).splitOnP p).filter
          (fun t => !t.isEmpty) := by
  rw [← pieces_dropWhile p s]
  split_ifs with h
  · rw [h]
    simp
  · obtain ⟨x, xs, hs⟩ := List.exists_cons_of_ne_nil h
    have hx : p x = false := by
      have := List.head_dropWhile_not p s h
      simpa [hs] using this
    simp only [hs]
    rw [splitOnP_unfold]
    rw [List.filter_cons_of_pos (by simp [hx])]
    congr 1
    cases hd : List.dropWhile (fun c => !p c) (x :: xs) with
    | nil => simp
    | cons d r => simp

theorem semi_pred_eq : (fun c : Char => decide (c = ';')) = (fun c : Char => c == ';') := by
  funext c
  rfl

theorem semi_pred_ne : (fun c : Char => decide (c ≠ ';')) = (fun c : Char => !(c == ';')) := by
  funext c
  by_cases h : c = ';' <;> simp [h]

theorem semiPieces_strtok_r (s : CStr) :
    semiPieces s = match strtok_r s with
      | none => []
      | some (_, tok, rest) => tok :: semiPieces rest := by
  unfold semiPieces List.splitOn strtok_r
  rw [pieces_unfold]
  simp only [drop_length_takeWhile, semi_pred_eq, semi_pred_ne]
  split_ifs with h <;> rfl

theorem strtok_r_token {s tok rest : CStr} {k : Nat} (h : strtok_r s = some (k, tok, rest)) :
    tok ≠ [] ∧ (∀ c ∈ tok, c ∈ s ∧ c ≠ ';') ∧ ∀ c ∈ rest, c ∈ s := by
  unfold strtok_r at h
  dsimp only at h
  split_ifs at h with h1
  simp only [Option.some.injEq, Prod.mk.injEq] at h
  obtain ⟨-, rfl, rfl⟩ := h
  rw [drop_length_takeWhile] at h1 ⊢
  obtain ⟨x, xs, hs⟩ := List.exists_cons_of_ne_nil h1
  have hx : x ≠ ';' := by
    have := List.head_dropWhile_not (fun c => decide (c = ';')) s h1
    simpa [hs] using this
  refine ⟨?_, ?_, ?_⟩
  · rw [hs, List.takeWhile_cons_of_pos (by simpa using hx)]
    simp
  · intro c hc
    refine ⟨(List.dropWhile_sublist _).mem ((List.takeWhile_sublist _).mem hc), ?_⟩
    simpa using List.mem_takeWhile_imp hc
  · intro c hc
    exact (List.dropWhile_sublist _).mem
      ((List.dropWhile_sublist _).mem (List.mem_of_mem_drop hc))

/-- One plain statement through the loop over `&`, whatever the offset and the byte before. -/
theorem bgLoop_plain (env : Env) (off : Nat) (prev : Char) (s : CStr) (st : ShellState)
    (hne : s ≠ []) (hamp : '&' ∉ s) (hp : '|' ∉ s) (hin : '<' ∉ s) (hout : '>' ∉ s)
    (hlen : st.cmd_num ≤ st.cmd_buf.length) :
    ∃ buf : List cmd_st,
      bgLoop env (s.length + 1) off prev s { st with
          cmd_buf := (realloc env.junk st.cmd_buf (st.cmd_num + 1)).set st.cmd_num
            cmd_st.blank } =
        .ok { st with cmd_buf := buf, cmd_num := st.cmd_num + 1 } ∧
      buf.length = st.cmd_num + 1 ∧
      buf.take (st.cmd_num + 1) = st.cmd_buf.take st.cmd_num ++ [plainDescriptor s] := by
  have hb := realloc_set_last env.junk st.cmd_buf st.cmd_num cmd_st.blank hlen
  have hl : (st.cmd_buf.take st.cmd_num).length = st.cmd_num := by
    rw [List.length_take]
    omega
  have hget : (st.cmd_buf.take st.cmd_num ++ [cmd_st.blank]).getD st.cmd_num
      (env.junk st.cmd_num) = cmd_st.blank := by
    rw [List.getD_eq_getElem?_getD, List.getElem?_append_right (by omega), hl]
    simp
  have hlt : st.cmd_num < (st.cmd_buf.take st.cmd_num ++ [cmd_st.blank]).length := by
    simp [hl]
  refine ⟨((st.cmd_buf.take st.cmd_num ++ [cmd_st.blank]).set st.cmd_num
      (plainDescriptor s)).set st.cmd_num (plainDescriptor s), ?_, ?_, ?_⟩
  · unfold bgLoop
    rw [bgAmp_of_not_mem hamp, parsePipe_plain env prev s 0 _ hne hp hin hout, hb]
    simp only [tagAndAdvance, slot, hget, getD_set_self _ _ _ hlt]
    rfl
  · simp [hl]
  · rw [take_succ_set _ _ (by simpa using hlt), take_set_of_le _ _ (Nat.le_refl _),
      List.take_left' hl]

theorem semiLoop_plain (env : Env) (fuel : Nat) :
    ∀ (off : Nat) (prev : Char) (s : CStr) (st : ShellState),
      s.length < fuel →
      '&' ∉ s → '|' ∉ s → '<' ∉ s → '>' ∉ s →
      st.cmd_num ≤ st.cmd_buf.length →
      ∃ buf : List cmd_st,
        semiLoop env fuel off prev s st = .ok { st with
          cmd_buf := buf, cmd_num := st.cmd_num + (semiPieces s).length } ∧
        st.cmd_num + (semiPieces s).length ≤ buf.length ∧
        buf.take (st.cmd_num + (semiPieces s).length) =
          st.cmd_buf.take st.cmd_num ++ (semiPieces s).map plainDescriptor := by
  induction fuel with
  | zero => intro off prev s st h; omega
  | succ n ih =>
    intro off prev s st hfuel hamp hp hin hout hlen
    have hsp := semiPieces_strtok_r s
    cases hk : strtok_r s with
    | none =>
      rw [hk] at hsp
      refine ⟨st.cmd_buf, ?_, ?_, ?_⟩
      · unfold semiLoop
        rw [hk, hsp]
        rfl
      · rw [hsp]
        simpa using hlen
      · rw [hsp]
        simp
    | some v =>
      obtain ⟨k, tok, rest⟩ := v
      rw [hk] at hsp
      simp only at hsp
      obtain ⟨htne, htok, hrest⟩ := strtok_r_token hk
      have hrl := strtok_r_length hk
      obtain ⟨buf1, hbg, hbl, hbt⟩ := bgLoop_plain env (off + k) (if k = 0 then prev else ';')
        tok st htne (fun h => hamp (htok _ h).1) (fun h => hp (htok _ h).1)
        (fun h => hin (htok _ h).1) (fun h => hout (htok _ h).1) hlen
      obtain ⟨buf, hrun, hlen2, htake⟩ := ih (off + k + tok.length + 1) '\x00' rest
        { st with cmd_buf := buf1, cmd_num := st.cmd_num + 1 } (by omega)
        (fun h => hamp (hrest _ h)) (fun h => hp (hrest _ h)) (fun h => hin (hrest _ h))
        (fun h => hout (hrest _ h)) (by simp [hbl])
      refine ⟨buf, ?_, ?_, ?_⟩
      · unfold semiLoop
        rw [hk]
        simp only [hbg, hrun, hsp, List.length_cons]
        congr 2
        omega
      · rw [hsp, List.length_cons]
        simp only at hlen2
        omega
      · rw [hsp, List.length_cons, List.map_cons]
        simp only at htake
        rw [show st.cmd_num + ((semiPieces rest).length + 1) =
          st.cmd_num + 1 + (semiPieces rest).length by omega, htake, hbt]
        simp

theorem mem_intercalate_semi (ps : List CStr) (c : Char) (hc : c ∈ [';'].intercalate ps) :
    c = ';' ∨ ∃ s ∈ ps, c ∈ s := by
  induction ps with
  | nil => simp [List.intercalate] at hc
  | cons a t ih =>
    cases t with
    | nil =>
      right
      exact ⟨a, List.mem_cons_self _ _, by simpa [List.intercalate] using hc⟩
    | cons b t' =>
      have hsplit : [';'].intercalate (a :: b :: t') = a ++ ';' :: [';'].intercalate (b :: t') := by
        simp [List.intercalate]
      rw [hsplit] at hc
      rcases List.mem_append.1 hc with h | h
      · exact Or.inr ⟨a, List.mem_cons_self _ _, h⟩
      · rcases List.mem_cons.1 h with h | h
        · exact Or.inl h
        · rcases ih h with h' | ⟨s, hs, hcs⟩
          · exact Or.inl h'
          · exact Or.inr ⟨s, List.mem_cons_of_mem _ hs, hcs⟩

theorem semiPieces_intercalate (ps : List CStr) (hps : ∀ s ∈ ps, ';' ∉ s) :
    semiPieces ([';'].intercalate ps) = ps.filter (fun s => !s.isEmpty) := by
  unfold semiPieces
  by_cases h : ps = []
  · subst h
    simp [List.intercalate]
  · rw [List.splitOn_intercalate ps ';' hps h]

/-- C14. For a line `s1;s2;...;sn` whose pieces hold none of `;`, `&`, `|`, `<`, `>`,
parsed on a state with an empty queue, `parseInput` returns normally and queues one
descriptor for each piece that is not empty, in the order of the pieces; empty pieces
(from `;;`, a leading or a trailing `;`) contribute nothing and raise no error. The
descriptor of a piece has the tokens of that piece as arguments, group id 0, no pipe ends
and no files, and nothing is done to the outside world. -/
theorem parseInput_sequence (env : Env) (st : ShellState) (ps : List CStr)
    (hps : ∀ s ∈ ps, plainText s = true) (hfresh : st.cmd_num = 0) :
    ∃ st', parseInput env ([';'].intercalate ps) st = .ok st' ∧
      st'.cmd_num = (ps.filter (fun s => !s.isEmpty)).length ∧
      queue st' = (ps.filter (fun s => !s.isEmpty)).map
        (fun s => { args := some (tokens s), pipe_fd_r := 0, pipe_fd_w := 0, file_in := none,
                    file_out := none, file_err := none, pgid := 0 }) ∧
      st'.trace = st.trace := by
  have hno : ∀ x : Char, isOperator x = true → x ≠ ';' → x ∉ [';'].intercalate ps := by
    intro x hx hx' hmem
    rcases mem_intercalate_semi ps x hmem with h | ⟨s, hs, hxs⟩
    · exact hx' h
    · exact plainText_not_mem (hps s hs) hx hxs
  have hsemi : ∀ s ∈ ps, ';' ∉ s := fun s hs => plainText_not_mem (hps s hs) rfl
  obtain ⟨buf, hrun, -, htake⟩ := semiLoop_plain env (([';'].intercalate ps).length + 1) 0
    env.pre ([';'].intercalate ps) st (Nat.lt_succ_self _)
    (hno '&' rfl (by decide)) (hno '|' rfl (by decide)) (hno '<' rfl (by decide))
    (hno '>' rfl (by decide)) (by rw [hfresh]; exact Nat.zero_le _)
  rw [semiPieces_intercalate ps hsemi, hfresh] at hrun htake
  refine ⟨_, hrun, by simp, ?_, rfl⟩
  simp only [queue, htake, List.take_zero, List.nil_append]
  rfl

/-- The line `a;;b c;`: the pieces `a`, empty, `b c`, empty. -/
theorem parseInput_sequence_witness :
    ∃ st', parseInput sampleEnv ([';'].intercalate [['a'], [], ['b', ' ', 'c'], []])
        ShellState.init = .ok st' ∧
      st'.cmd_num = (([['a'], [], ['b', ' ', 'c'], []] : List CStr).filter
        (fun s => !s.isEmpty)).length ∧
      queue st' = (([['a'], [], ['b', ' ', 'c'], []] : List CStr).filter
          (fun s => !s.isEmpty)).map
        (fun s => { args := some (tokens s), pipe_fd_r := 0, pipe_fd_w := 0, file_in := none,
                    file_out := none, file_err := none, pgid := 0 }) ∧
      st'.trace = ShellState.init.trace :=
  parseInput_sequence sampleEnv ShellState.init [['a'], [], ['b', ' ', 'c'], []]
    (by decide) rfl

/-! ## Both redirections in one stage -/

theorem stdoutSwitch_ctl (c : Char) :
    (stdoutSwitch c).1 = 1 ∨ (stdoutSwitch c).1 = 2 ∨ (stdoutSwitch c).1 = 3 := by
  unfold stdoutSwitch
  split_ifs <;> simp

theorem fileName_eq (s : CStr) (start : Nat) (len : Int) :
    fileName s start len = operandName ((s.drop start).take len.toNat) := rfl

/-- The second half of `parseRedirect` when both operators are present once and the three
lengths are positive. -/
theorem parseRedirect_both (prev : Char) (s : CStr) (command : cmd_st) (i o : Nat) (v : Spans)
    (hne : s ≠ []) (hi : strstr s '<' = some i) (ho : strstr s '>' = some o)
    (hi2 : strstr (s.drop (i + 1)) '<' = none) (ho2 : strstr (s.drop (o + 1)) '>' = none)
    (hv : spans prev s (some i) (some o) = v)
    (hc : 0 < v.cmd_len) (hil : 0 < v.in_len) (hol : 0 < v.out_len)
    (hctl : v.stdout_ctl = 1 ∨ v.stdout_ctl = 2 ∨ v.stdout_ctl = 3) :
    parseRedirect prev s command =
      .ok (withOutput v.stdout_ctl (fileName s v.start_out v.out_len)
        { command with
          args := some (tokens (s.take v.cmd_len.toNat)),
          file_in := some (fileName s v.start_in v.in_len) }) := by
  unfold parseRedirect
  rw [if_neg hne]
  simp only [hi, ho, hi2, ho2, Option.isSome_none, Option.isSome_some, Bool.or_self,
    Bool.false_eq_true, if_false, hv, Bool.true_and, if_true, split_eq_tokens]
  have h1 : ¬ v.cmd_len = 0 := by omega
  have h2 : ¬ v.in_len = 0 := by omega
  have h3 : ¬ v.out_len = 0 := by omega
  have h4 : ¬ v.cmd_len < 0 := by omega
  simp only [h1, h2, h3, h4, if_false, decide_False, Bool.false_eq_true]
  unfold withOutput
  rcases hctl with h | h | h <;> simp [h]

theorem take_length_pred_append (a b : CStr) : (a ++ b).take (a.length - 1) = a.dropLast := by
  rw [List.take_append_of_le_length (by omega), List.dropLast_eq_take]

theorem parseRedirect_in_first (prev : Char) (a m r : CStr) (command : cmd_st)
    (ha : a ≠ []) (hm : m ≠ []) (hr : r ≠ [])
    (ha1 : '<' ∉ a) (ha2 : '>' ∉ a) (hm1 : '<' ∉ m) (hm2 : '>' ∉ m)
    (hr1 : '<' ∉ r) (hr2 : '>' ∉ r)
    (hspan : (if (stdoutSwitch (m.getLast hm)).2 then m.dropLast else m) ≠ []) :
    parseRedirect prev (a ++ '<' :: (m ++ '>' :: r)) command =
      .ok (withOutput (stdoutSwitch (m.getLast hm)).1 (operandName r)
        { command with
          args := some (tokens a),
          file_in := some (operandName
            (if (stdoutSwitch (m.getLast hm)).2 then m.dropLast else m)) }) := by
  have hal : 0 < a.length := List.length_pos.2 ha
  have hml : 0 < m.length := List.length_pos.2 hm
  have hrl : 0 < r.length := List.length_pos.2 hr
  have hs : a ++ '<' :: (m ++ '>' :: r) = (a ++ '<' :: m) ++ '>' :: r := by simp
  have hne2 : a ++ '<' :: m ≠ [] := by simp
  have hlast : (a ++ '<' :: m).getLast hne2 = m.getLast hm := by
    rw [List.getLast_append_of_ne_nil (by simp)]
    exact List.getLast_cons hm
  have hi : strstr (a ++ '<' :: (m ++ '>' :: r)) '<' = some a.length := strstr_append_cons ha1
  have ho : strstr (a ++ '<' :: (m ++ '>' :: r)) '>' = some (a ++ '<' :: m).length := by
    rw [hs]
    exact strstr_append_cons (by simp [ha2, hm2])
  have hi2 : strstr ((a ++ '<' :: (m ++ '>' :: r)).drop (a.length + 1)) '<' = none := by
    rw [drop_append_cons]
    exact strstr_of_not_mem (by simp [hm1, hr1])
  have ho2 : strstr ((a ++ '<' :: (m ++ '>' :: r)).drop ((a ++ '<' :: m).length + 1)) '>' =
      none := by
    rw [hs, drop_append_cons]
    exact strstr_of_not_mem hr2
  have hspanlen : 0 < (if (stdoutSwitch (m.getLast hm)).2 then m.length - 1 else m.length) := by
    by_cases hd : (stdoutSwitch (m.getLast hm)).2 = true
    · rw [if_pos hd] at hspan ⊢
      have := List.length_pos.2 hspan
      simpa using this
    · rw [if_neg hd]
      exact hml
  have hv : spans prev (a ++ '<' :: (m ++ '>' :: r)) (some a.length)
      (some (a ++ '<' :: m).length) =
      { cmd_len := a.length, out_len := r.length,
        start_out := (a ++ '<' :: m).length + 1, start_in := a.length + 1,
        stdout_ctl := (stdoutSwitch (m.getLast hm)).1,
        in_len := ((if (stdoutSwitch (m.getLast hm)).2 then m.length - 1 else m.length : Nat) :
          Int) } := by
    have hb : byteBefore prev (a ++ '<' :: (m ++ '>' :: r)) (a ++ '<' :: m).length =
        m.getLast hm := by
      rw [hs, byteBefore_append prev (a ++ '<' :: m) ('>' :: r) hne2, hlast]
    have hlt : a.length < (a ++ '<' :: m).length := by simp
    unfold spans
    simp only [hb, hlt, if_true]
    congr 1 <;> (try split_ifs) <;> (try simp only [List.length_append, List.length_cons]) <;>
      omega
  have htake : (m ++ '>' :: r).take
      (if (stdoutSwitch (m.getLast hm)).2 then m.length - 1 else m.length) =
      (if (stdoutSwitch (m.getLast hm)).2 then m.dropLast else m) := by
    split_ifs
    · exact take_length_pred_append m _
    · exact List.take_left' rfl
  rw [parseRedirect_both prev _ command _ _ _ (by simp) hi ho hi2 ho2 hv
    (by simpa using hal) (Int.natCast_pos.2 hspanlen) (by simpa using hrl)
    (stdoutSwitch_ctl _)]
  simp only [fileName_eq, Int.toNat_ofNat, List.take_left' rfl]
  rw [drop_append_cons a, htake, hs, drop_append_cons (a ++ '<' :: m), List.take_length]

theorem parseRedirect_out_first (prev : Char) (a m r : CStr) (command : cmd_st)
    (ha : a ≠ []) (hm : m ≠ []) (hr : r ≠ [])
    (ha1 : '<' ∉ a) (ha2 : '>' ∉ a) (hm1 : '<' ∉ m) (hm2 : '>' ∉ m)
    (hr1 : '<' ∉ r) (hr2 : '>' ∉ r)
    (hspan : (if (stdoutSwitch (a.getLast ha)).2 then a.dropLast else a) ≠ []) :
    parseRedirect prev (a ++ '>' :: (m ++ '<' :: r)) command =
      .ok (withOutput (stdoutSwitch (a.getLast ha)).1 (operandName m)
        { command with
          args := some (tokens (if (stdoutSwitch (a.getLast ha)).2 then a.dropLast else a)),
          file_in := some (operandName r) }) := by
  have hal : 0 < a.length := List.length_pos.2 ha
  have hml : 0 < m.length := List.length_pos.2 hm
  have hrl : 0 < r.length := List.length_pos.2 hr
  have hs : a ++ '>' :: (m ++ '<' :: r) = (a ++ '>' :: m) ++ '<' :: r := by simp
  have ho : strstr (a ++ '>' :: (m ++ '<' :: r)) '>' = some a.length := strstr_append_cons ha2
  have hi : strstr (a ++ '>' :: (m ++ '<' :: r)) '<' = some (a ++ '>' :: m).length := by
    rw [hs]
    exact strstr_append_cons (by simp [ha1, hm1])
  have ho2 : strstr ((a ++ '>' :: (m ++ '<' :: r)).drop (a.length + 1)) '>' = none := by
    rw [drop_append_cons]
    exact strstr_of_not_mem (by simp [hm2, hr2])
  have hi2 : strstr ((a ++ '>' :: (m ++ '<' :: r)).drop ((a ++ '>' :: m).length + 1)) '<' =
      none := by
    rw [hs, drop_append_cons]
    exact strstr_of_not_mem hr1
  have hspanlen : 0 < (if (stdoutSwitch (a.getLast ha)).2 then a.length - 1 else a.length) := by
    by_cases hd : (stdoutSwitch (a.getLast ha)).2 = true
    · rw [if_pos hd] at hspan ⊢
      have := List.length_pos.2 hspan
      simpa using this
    · rw [if_neg hd]
      exact hal
  have hv : spans prev (a ++ '>' :: (m ++ '<' :: r)) (some (a ++ '>' :: m).length)
      (some a.length) =
      { in_len := r.length, start_in := (a ++ '>' :: m).length + 1, out_len := m.length,
        start_out := a.length + 1, stdout_ctl := (stdoutSwitch (a.getLast ha)).1,
        cmd_len := ((if (stdoutSwitch (a.getLast ha)).2 then a.length - 1 else a.length : Nat) :
          Int) } := by
    have hb : byteBefore prev (a ++ '>' :: (m ++ '<' :: r)) a.length = a.getLast ha :=
      byteBefore_append prev a _ ha
    have hlt : ¬ (a ++ '>' :: m).length < a.length := by simp
    have hlt2 : a.length < (a ++ '>' :: m).length := by simp
    unfold spans
    simp only [hb, hlt, hlt2, if_true, if_false]
    congr 1 <;> (try split_ifs) <;> (try simp only [List.length_append, List.length_cons]) <;>
      omega
  have htake : (a ++ '>' :: (m ++ '<' :: r)).take
      (if (stdoutSwitch (a.getLast ha)).2 then a.length - 1 else a.length) =
      (if (stdoutSwitch (a.getLast ha)).2 then a.dropLast else a) := by
    split_ifs
    · exact take_length_pred_append a _
    · exact List.take_left' rfl
  rw [parseRedirect_both prev _ command _ _ _ (by simp) hi ho hi2 ho2 hv
    (Int.natCast_pos.2 hspanlen) (by simpa using hrl) (by simpa using hml)
    (stdoutSwitch_ctl _)]
  simp only [fileName_eq, Int.toNat_ofNat]
  rw [htake, drop_append_cons a, List.take_left' rfl, hs, drop_append_cons (a ++ '>' :: m),
    List.take_length]

theorem splitOnP_append_sep (p : Char → Bool) (a : CStr) (d : Char) (hd : p d = true) :
    (a ++ [d]).splitOnP p = a.splitOnP p ++ [[]] := by
  induction a with
  | nil => simp [List.splitOnP_cons, hd]
  | cons x xs ih =>
    rw [List.cons_append, List.splitOnP_cons, List.splitOnP_cons, ih]
    by_cases hx : p x = true
    · simp [hx]
    · obtain ⟨h, t, hsp⟩ := List.exists_cons_of_ne_nil (List.splitOnP_ne_nil p xs)
      simp [hx, hsp]

theorem tokens_append_space (c : CStr) : tokens (c ++ [' ']) = tokens c := by
  unfold tokens
  rw [splitOnP_append_sep isDelim c ' ' rfl, List.filter_append]
  simp

theorem operandName_lead (f : CStr) (hf : f ≠ []) (hfs : ∀ x ∈ f, isspace x = false) :
    operandName (' ' :: f) = f :=
  fileName_operand [' '] f (by simp [isspace]) hf hfs

theorem operandName_padded (f : CStr) (hfs : ∀ x ∈ f, isspace x = false) :
    operandName (' ' :: (f ++ [' '])) = f := by
  unfold operandName
  have h1 : (' ' :: (f ++ [' '])).getLast? = some ' ' := by
    rw [← List.cons_append, List.getLast?_append_of_ne_nil _ (by simp)]
    rfl
  have h2 : (' ' :: (f ++ [' '])).dropLast = ' ' :: f := by
    rw [← List.cons_append, List.dropLast_concat]
  rw [if_pos h1, h2]
  exact trimWhitespace_append [' '] f (by simp [isspace]) hfs

theorem plain_no_in {s : CStr} (h : plainText s = true) : '<' ∉ s := plainText_not_mem h rfl

theorem plain_no_out {s : CStr} (h : plainText s = true) : '>' ∉ s := plainText_not_mem h rfl

theorem inThenOut_plain (prev : Char) (c f g : CStr) (command : cmd_st)
    (hc : plainText c = true) (hfp : plainText f = true)
    (hfs : ∀ x ∈ f, isspace x = false) (hg : g ≠ []) (hgp : plainText g = true)
    (hgs : ∀ x ∈ g, isspace x = false) :
    parseRedirect prev (inThenOut c f [] g) command =
      .ok (withOutput 1 g { command with args := some (tokens c), file_in := some f }) := by
  have h := parseRedirect_in_first prev (c ++ [' ']) (' ' :: (f ++ [' '])) (' ' :: g) command
    (by simp) (by simp) (by simp)
    (by simp [plain_no_in hc]) (by simp [plain_no_out hc])
    (by simp [plain_no_in hfp]) (by simp [plain_no_out hfp])
    (by simp [plain_no_in hgp]) (by simp [plain_no_out hgp])
  have hl : ∀ h', (' ' :: (f ++ [' '])).getLast h' = ' ' := fun h' => by
    simp [List.getLast_cons, List.getLast_append]
  simp only [hl] at h
  have hsw : stdoutSwitch ' ' = (1, false) := by decide
  simp only [hsw, Bool.false_eq_true, if_false] at h
  rw [show inThenOut c f [] g = c ++ [' '] ++ '<' :: (' ' :: (f ++ [' ']) ++ '>' :: ' ' :: g) by
    simp [inThenOut]]
  rw [h (by simp), tokens_append_space, operandName_lead g hg hgs, operandName_padded f hfs]

theorem inThenOut_tagged (prev : Char) (c f g : CStr) (p : Char) (command : cmd_st)
    (hc : plainText c = true) (hfp : plainText f = true)
    (hfs : ∀ x ∈ f, isspace x = false) (hg : g ≠ []) (hgp : plainText g = true)
    (hgs : ∀ x ∈ g, isspace x = false) (hp : p ≠ '<' ∧ p ≠ '>')
    (hsw : (stdoutSwitch p).2 = true) :
    parseRedirect prev (inThenOut c f [p] g) command =
      .ok (withOutput (stdoutSwitch p).1 g
        { command with args := some (tokens c), file_in := some f }) := by
  have h := parseRedirect_in_first prev (c ++ [' ']) (' ' :: (f ++ [' ', p])) (' ' :: g) command
    (by simp) (by simp) (by simp)
    (by simp [plain_no_in hc]) (by simp [plain_no_out hc])
    (by simp [plain_no_in hfp, hp.1.symm]) (by simp [plain_no_out hfp, hp.2.symm])
    (by simp [plain_no_in hgp]) (by simp [plain_no_out hgp])
  have hl : ∀ h', (' ' :: (f ++ [' ', p])).getLast h' = p := fun h' => by
    simp [List.getLast_cons, List.getLast_append]
  have hd : (' ' :: (f ++ [' ', p])).dropLast = ' ' :: (f ++ [' ']) := by
    rw [show ' ' :: (f ++ [' ', p]) = (' ' :: (f ++ [' '])) ++ [p] by simp,
      List.dropLast_concat]
  simp only [hl, hsw, if_true, hd] at h
  rw [show inThenOut c f [p] g =
    c ++ [' '] ++ '<' :: (' ' :: (f ++ [' ', p]) ++ '>' :: ' ' :: g) by simp [inThenOut]]
  rw [h (by simp), tokens_append_space, operandName_lead g hg hgs, operandName_padded f hfs]

theorem outThenIn_plain (prev : Char) (c f g : CStr) (command : cmd_st)
    (hc : plainText c = true) (hf : f ≠ []) (hfp : plainText f = true)
    (hfs : ∀ x ∈ f, isspace x = false) (hgp : plainText g = true)
    (hgs : ∀ x ∈ g, isspace x = false) :
    parseRedirect prev (outThenIn c f [] g) command =
      .ok (withOutput 1 g { command with args := some (tokens c), file_in := some f }) := by
  have h := parseRedirect_out_first prev (c ++ [' ']) (' ' :: (g ++ [' '])) (' ' :: f) command
    (by simp) (by simp) (by simp)
    (by simp [plain_no_in hc]) (by simp [plain_no_out hc])
    (by simp [plain_no_in hgp]) (by simp [plain_no_out hgp])
    (by simp [plain_no_in hfp]) (by simp [plain_no_out hfp])
  have hl : ∀ h', (c ++ [' ']).getLast h' = ' ' := fun h' => by simp
  simp only [hl] at h
  have hsw : stdoutSwitch ' ' = (1, false) := by decide
  simp only [hsw, Bool.false_eq_true, if_false] at h
  rw [show outThenIn c f [] g = c ++ [' '] ++ '>' :: (' ' :: (g ++ [' ']) ++ '<' :: ' ' :: f) by
    simp [outThenIn]]
  rw [h (by simp), tokens_append_space, operandName_lead f hf hfs, operandName_padded g hgs]

theorem outThenIn_tagged (prev : Char) (c f g : CStr) (p : Char) (command : cmd_st)
    (hc : plainText c = true) (hf : f ≠ []) (hfp : plainText f = true)
    (hfs : ∀ x ∈ f, isspace x = false) (hgp : plainText g = true)
    (hgs : ∀ x ∈ g, isspace x = false) (hp : p ≠ '<' ∧ p ≠ '>')
    (hsw : (stdoutSwitch p).2 = true) :
    parseRedirect prev (outThenIn c f [p] g) command =
      .ok (withOutput (stdoutSwitch p).1 g
        { command with args := some (tokens c), file_in := some f }) := by
  have h := parseRedirect_out_first prev (c ++ [' ', p]) (' ' :: (g ++ [' '])) (' ' :: f)
    command (by simp) (by simp) (by simp)
    (by simp [plain_no_in hc, hp.1.symm]) (by simp [plain_no_out hc, hp.2.symm])
    (by simp [plain_no_in hgp]) (by simp [plain_no_out hgp])
    (by simp [plain_no_in hfp]) (by simp [plain_no_out hfp])
  have hl : ∀ h', (c ++ [' ', p]).getLast h' = p := fun h' => by simp
  have hd : (c ++ [' ', p]).dropLast = c ++ [' '] := by
    rw [show c ++ [' ', p] = (c ++ [' ']) ++ [p] by simp, List.dropLast_concat]
  simp only [hl, hsw, if_true, hd] at h
  rw [show outThenIn c f [p] g =
    c ++ [' ', p] ++ '>' :: (' ' :: (g ++ [' ']) ++ '<' :: ' ' :: f) by simp [outThenIn]]
  rw [h (by simp), tokens_append_space, operandName_lead f hf hfs, operandName_padded g hgs]

/-- C18. For command text `c` without operator characters, file names `f` and `g` that are
not empty and hold neither white space nor operator characters, and every output prefix `P`
(none, `1`, `2`, `&`), the stages `c < f P> g` and `c P> g < f` (single spaces) both parse
and give the same descriptor: the tokens of `c` as arguments, `f` as input file, and `g`
as output file (no prefix or `1`), as error file (`2`) or as both (`&`). -/
theorem parseRedirect_order_symmetric (prev : Char) (c f g P : CStr) (ctl : Nat)
    (command : cmd_st) (hc : plainText c = true)
    (hf : f ≠ []) (hfp : plainText f = true) (hfs : ∀ x ∈ f, isspace x = false)
    (hg : g ≠ []) (hgp : plainText g = true) (hgs : ∀ x ∈ g, isspace x = false)
    (hP : outputPrefix P = some ctl) :
    parseRedirect prev (inThenOut c f P g) command =
        .ok (withOutput ctl g { command with args := some (tokens c), file_in := some f }) ∧
      parseRedirect prev (outThenIn c f P g) command =
        .ok (withOutput ctl g { command with args := some (tokens c), file_in := some f }) := by
  have hcases : (P = [] ∧ ctl = 1) ∨ (P = ['1'] ∧ ctl = 1) ∨ (P = ['2'] ∧ ctl = 2) ∨
      (P = ['&'] ∧ ctl = 3) := by
    unfold outputPrefix at hP
    split at hP <;> simp_all
  rcases hcases with ⟨rfl, rfl⟩ | ⟨rfl, rfl⟩ | ⟨rfl, rfl⟩ | ⟨rfl, rfl⟩
  · exact ⟨inThenOut_plain prev c f g command hc hfp hfs hg hgp hgs,
      outThenIn_plain prev c f g command hc hf hfp hfs hgp hgs⟩
  · exact ⟨inThenOut_tagged prev c f g '1' command hc hfp hfs hg hgp hgs (by decide) rfl,
      outThenIn_tagged prev c f g '1' command hc hf hfp hfs hgp hgs (by decide) rfl⟩
  · exact ⟨inThenOut_tagged prev c f g '2' command hc hfp hfs hg hgp hgs (by decide) rfl,
      outThenIn_tagged prev c f g '2' command hc hf hfp hfs hgp hgs (by decide) rfl⟩
  · exact ⟨inThenOut_tagged prev c f g '&' command hc hfp hfs hg hgp hgs (by decide) rfl,
      outThenIn_tagged prev c f g '&' command hc hf hfp hfs hgp hgs (by decide) rfl⟩

/-- The stages `sort < in 2> err` and `sort 2> err < in`. -/
theorem parseRedirect_order_symmetric_witness :
    parseRedirect 'x' (inThenOut "sort".toList "in".toList ['2'] "err".toList) cmd_st.blank =
        .ok (withOutput 2 "err".toList
          { cmd_st.blank with args := some (tokens "sort".toList),
                              file_in := some "in".toList }) ∧
      parseRedirect 'x' (outThenIn "sort".toList "in".toList ['2'] "err".toList) cmd_st.blank =
        .ok (withOutput 2 "err".toList
          { cmd_st.blank with args := some (tokens "sort".toList),
                              file_in := some "in".toList }) :=
  parseRedirect_order_symmetric 'x' "sort".toList "in".toList "err".toList ['2'] 2 cmd_st.blank
    (by decide) (by decide) (by decide) (by decide) (by decide) (by decide) (by decide) rfl

/-! ## runCommands up to the first builtin -/

theorem externalStage_args {c : cmd_st} (h : externalStage c = true) :
    ∃ name rest, c.args = some (name :: rest) ∧ isExternal name = true := by
  unfold externalStage at h
  split at h
  · rename_i name rest hA
    exact ⟨name, rest, hA, h⟩
  · simp at h

theorem isExternal_ne_nil {name : CStr} (h : isExternal name = true) : name ≠ [] := by
  intro e
  simp [isExternal, e] at h

/-- One external descriptor: the loop performs its actions and goes on with the next index,
with the queue untouched and no pid left in the tracked set. -/
theorem runLoop_step_external (env : Env) (hfork : ∀ k, 0 < env.forkRet k) (n i : Nat)
    (st : ShellState) (hext : externalStage (slot env st i) = true)
    (hidx : st.pid_idx = 0) (hpb : 0 < st.pid_buf.length) :
    ∃ mid : ShellState,
      mid.cmd_buf = st.cmd_buf ∧ mid.cmd_num = st.cmd_num ∧ mid.pid_idx = 0 ∧
      0 < mid.pid_buf.length ∧
      mid.trace = st.trace ++ stageActions env st.cmd_buf i (env.forkRet st.forks) ∧
      mid.forks = st.forks + 1 ∧
      runLoop env (n + 1) i st = runLoop env n (i + 1) mid := by
  obtain ⟨name, rest, hA, hargs⟩ := externalStage_args hext
  have hne := isExternal_ne_nil hargs
  have hpos := hfork st.forks
  rw [runLoop]
  simp only [hA, if_neg hne, builtinHelper_external rest st hargs,
    if_neg (not_lt.2 (le_of_lt hpos)), if_neg (ne_of_gt hpos)]
  by_cases hpg : (slot env st i).pgid ≠ 0
  · rw [if_pos hpg]
    by_cases hnew : (i = 0 || (slot env st (i - 1)).pgid ≠ (slot env st i).pgid) = true
    · rw [if_pos hnew]
      refine ⟨_, ?_, ?_, ?_, ?_, ?_, ?_, rfl⟩ <;> try first | rfl | exact hidx | exact hpb
      unfold stageActions
      have hpg' : (st.cmd_buf.getD i (env.junk i)).pgid ≠ 0 := hpg
      have hnew' : (i = 0 || (st.cmd_buf.getD (i - 1) (env.junk (i - 1))).pgid ≠
          (st.cmd_buf.getD i (env.junk i)).pgid) = true := hnew
      rw [if_pos hpg', if_pos hnew']
      simp [slot, List.append_assoc]
    · rw [if_neg hnew]
      refine ⟨_, ?_, ?_, ?_, ?_, ?_, ?_, rfl⟩ <;> try first | rfl | exact hidx | exact hpb
      unfold stageActions
      have hpg' : (st.cmd_buf.getD i (env.junk i)).pgid ≠ 0 := hpg
      have hnew' : ¬ (i = 0 || (st.cmd_buf.getD (i - 1) (env.junk (i - 1))).pgid ≠
          (st.cmd_buf.getD i (env.junk i)).pgid) = true := hnew
      rw [if_pos hpg', if_neg hnew']
      simp [slot, List.append_assoc]
  · rw [if_neg hpg]
    simp only [hidx, removeLoop, getD_set_self _ _ _ hpb, if_true]
    refine ⟨_, ?_, ?_, ?_, ?_, ?_, ?_, rfl⟩ <;> try first | rfl | exact hidx | (simpa using hpb)
    unfold stageActions
    have hpg' : ¬ (st.cmd_buf.getD i (env.junk i)).pgid ≠ 0 := hpg
    rw [if_neg hpg']
    simp [slot, List.append_assoc]

theorem runLoop_external (env : Env) (hfork : ∀ k, 0 < env.forkRet k) (m : Nat) :
    ∀ (n i : Nat) (st : ShellState),
      (∀ j, i ≤ j → j < i + m → externalStage (slot env st j) = true) →
      st.pid_idx = 0 → 0 < st.pid_buf.length →
      ∃ mid : ShellState,
        mid.cmd_buf = st.cmd_buf ∧ mid.cmd_num = st.cmd_num ∧ mid.pid_idx = 0 ∧
        0 < mid.pid_buf.length ∧
        mid.trace = st.trace ++ externalTrace env st.cmd_buf m i st.forks ∧
        mid.forks = st.forks + m ∧
        runLoop env (m + n) i st = runLoop env n (i + m) mid := by
  induction m with
  | zero =>
    intro n i st _ hidx hpb
    exact ⟨st, rfl, rfl, hidx, hpb, by simp [externalTrace], rfl, by simp⟩
  | succ m ih =>
    intro n i st hq hidx hpb
    obtain ⟨mid1, h1, h2, h3, h4, h5, h6, h7⟩ := runLoop_step_external env hfork (m + n) i st
      (hq i (Nat.le_refl _) (by omega)) hidx hpb
    have hq1 : ∀ j, i + 1 ≤ j → j < i + 1 + m → externalStage (slot env mid1 j) = true := by
      intro j hj1 hj2
      have := hq j (by omega) (by omega)
      simpa [slot, h1] using this
    obtain ⟨mid, g1, g2, g3, g4, g5, g6, g7⟩ := ih n (i + 1) mid1 hq1 h3 h4
    refine ⟨mid, g1.trans h1, g2.trans h2, g3, g4, ?_, ?_, ?_⟩
    · rw [g5, h5, h1, h6, List.append_assoc]
      rfl
    · rw [g6, h6]
      omega
    · rw [show m + 1 + n = m + n + 1 by omega, h7, g7]
      congr 1
      omega

theorem closeEvents_forks (c : cmd_st) : (closeEvents c).filter Event.isFork = [] := by
  unfold closeEvents
  split_ifs <;> rfl

theorem stageActions_forks (env : Env) (buf : List cmd_st) (i : Nat) (pid : Int) :
    (stageActions env buf i pid).filter Event.isFork = [Event.fork i pid] := by
  unfold stageActions
  rw [List.filter_append, List.filter_append, closeEvents_forks]
  split_ifs <;> rfl

theorem externalTrace_forks (env : Env) (buf : List cmd_st) (n : Nat) :
    ∀ i k : Nat, (externalTrace env buf n i k).filter Event.isFork =
      (List.range n).map (fun j => Event.fork (i + j) (env.forkRet (k + j))) := by
  induction n with
  | zero => intro i k; rfl
  | succ n ih =>
    intro i k
    rw [externalTrace, List.filter_append, stageActions_forks, ih, List.range_succ_eq_map,
      List.map_cons, List.map_map]
    simp only [List.singleton_append, Nat.add_zero, List.cons.injEq, true_and]
    apply List.map_congr_left
    intro j _
    simp only [Function.comp, Nat.succ_eq_add_one]
    rw [show i + 1 + j = i + (j + 1) by omega, show k + 1 + j = k + (j + 1) by omega]

theorem isReturningBuiltin_ne_nil {name : CStr} (h : isReturningBuiltin name = true) :
    name ≠ [] := by
  intro e
  simp [isReturningBuiltin, e] at h

/-- The builtins `cd`, `help` and `echo` return 1 after a change of directory or prints:
they neither fork nor wait. -/
theorem builtinHelper_returning {name : CStr} (rest : List CStr) (st : ShellState)
    (h : isReturningBuiltin name = true) :
    ∃ ev : List Event,
      builtinHelper name rest st = .handled { st with trace := st.trace ++ ev } ∧
      ∀ e ∈ ev, e.isFork = false ∧ e.isWait = false := by
  unfold isReturningBuiltin at h
  simp only [Bool.or_eq_true, decide_eq_true_eq] at h
  unfold builtinHelper
  rcases h with (h | h) | h
  · subst h
    exact ⟨[.chdir rest.head?], by simp, by simp [Event.isFork, Event.isWait]⟩
  · subst h
    refine ⟨[.print helpCMD], ?_, by simp [Event.isFork, Event.isWait]⟩
    rw [if_neg (by decide), if_pos rfl]
  · subst h
    refine ⟨rest.map (fun t => Event.print (String.mk t ++ " ")) ++ [.print "\n"], ?_, ?_⟩
    · rw [if_neg (by decide), if_neg (by decide), if_pos rfl, List.append_assoc]
    · intro e he
      rcases List.mem_append.1 he with he | he
      · obtain ⟨t, -, rfl⟩ := List.mem_map.1 he
        exact ⟨rfl, rfl⟩
      · rw [List.mem_singleton.1 he]
        exact ⟨rfl, rfl⟩

/-- C20, as stated, fails when an earlier descriptor is `exit`: in the queue of
`exit ; echo a` descriptor 1 is the first whose first argument is `cd`, `help` or `echo`,
but the shell exits at descriptor 0: nothing is forked and `echo` is not run. -/
theorem exit_before_builtin_ends_shell :
    (∃ st', runCommands sampleEnv
        { ShellState.init with
          cmd_buf := [{ cmd_st.blank with args := some ["exit".toList] },
                      { cmd_st.blank with args := some ["echo".toList, ['a']] }],
          cmd_num := 2 } = .exited st' ∧ st'.trace = []) ∧
      (parseInput sampleEnv "exit ; echo a".toList
          { ShellState.init with cmd_buf := [cmd_st.blank] }).queue?.map
        (fun q => q.map (fun c => c.args)) =
        some [some ["exit".toList], some ["echo".toList, ['a']]] ∧
      (∃ st', myshell sampleEnv (some "exit ; echo a".toList) ShellState.init = .exited st') ∧
      (myshell sampleEnv (some "exit ; echo a".toList) ShellState.init).state.trace = [] :=
  ⟨⟨_, rfl, rfl⟩, by decide, ⟨_, rfl⟩, by decide⟩

/-- C20, amended. When the descriptors before index `i` are external commands (a non-empty
name that is none of `cd`, `help`, `echo`, `exit`), descriptor `i` has `cd`, `help` or
`echo` as first argument, `fork` succeeds and no pid is tracked at entry, `runCommands`
returns after the actions of the descriptors `0..i-1`, whose forks are exactly those of
the indices `0..i-1` in order, followed by the events of the builtin, which are neither
forks nor waits: nothing is done for a descriptor after `i`. -/
theorem runCommands_builtin_short_circuit (env : Env) (st : ShellState) (i : Nat)
    (name : CStr) (rest : List CStr)
    (hfork : ∀ k, 0 < env.forkRet k)
    (hi : i < st.cmd_num)
    (hbefore : ∀ j, j < i → externalStage (slot env st j) = true)
    (hargs : (slot env st i).args = some (name :: rest))
    (hb : isReturningBuiltin name = true)
    (hidx : st.pid_idx = 0) (hpb : 0 < st.pid_buf.length) :
    ∃ (mid : ShellState) (ev : List Event),
      runCommands env st = .returned { mid with trace := mid.trace ++ ev } ∧
      builtinHelper name rest mid = .handled { mid with trace := mid.trace ++ ev } ∧
      mid.trace = st.trace ++ externalTrace env st.cmd_buf i 0 st.forks ∧
      (externalTrace env st.cmd_buf i 0 st.forks).filter Event.isFork =
        (List.range i).map (fun j => Event.fork j (env.forkRet (st.forks + j))) ∧
      mid.forks = st.forks + i ∧
      (∀ e ∈ ev, e.isFork = false ∧ e.isWait = false) := by
  obtain ⟨mid, h1, -, -, -, h5, h6, h7⟩ := runLoop_external env hfork i (st.cmd_num - i) 0 st
    (fun j _ hj => hbefore j (by omega)) hidx hpb
  obtain ⟨ev, hev, hno⟩ := builtinHelper_returning rest mid hb
  have hslot : (slot env mid (0 + i)).args = some (name :: rest) := by
    rw [Nat.zero_add]
    simpa [slot, h1] using hargs
  refine ⟨mid, ev, ?_, hev, h5, ?_, h6, hno⟩
  · unfold runCommands
    rw [show st.cmd_num = i + (st.cmd_num - i) by omega, h7]
    obtain ⟨n, hn⟩ : ∃ n, st.cmd_num - i = n + 1 := ⟨st.cmd_num - i - 1, by omega⟩
    rw [hn, runLoop]
    simp only [hslot, if_neg (isReturningBuiltin_ne_nil hb), hev]
  · rw [externalTrace_forks]
    simp

/-- The queue of `ls ; echo a ; ls`: `ls` is forked and waited for, `echo a` is run by the
shell, and the second `ls` is never reached. -/
theorem runCommands_builtin_short_circuit_witness :
    ∃ (mid : ShellState) (ev : List Event),
      runCommands sampleEnv
          { ShellState.init with
            cmd_buf := [{ cmd_st.blank with args := some ["ls".toList] },
                        { cmd_st.blank with args := some ["echo".toList, ['a']] },
                        { cmd_st.blank with args := some ["ls".toList] }],
            cmd_num := 3 } = .returned { mid with trace := mid.trace ++ ev } ∧
      builtinHelper "echo".toList [['a']] mid =
        .handled { mid with trace := mid.trace ++ ev } ∧
      mid.trace = [] ++ externalTrace sampleEnv
          [{ cmd_st.blank with args := some ["ls".toList] },
           { cmd_st.blank with args := some ["echo".toList, ['a']] },
           { cmd_st.blank with args := some ["ls".toList] }] 1 0 0 ∧
      (externalTrace sampleEnv
          [{ cmd_st.blank with args := some ["ls".toList] },
           { cmd_st.blank with args := some ["echo".toList, ['a']] },
           { cmd_st.blank with args := some ["ls".toList] }] 1 0 0).filter Event.isFork =
        (List.range 1).map (fun j => Event.fork j (sampleEnv.forkRet (0 + j))) ∧
      mid.forks = 0 + 1 ∧
      (∀ e ∈ ev, e.isFork = false ∧ e.isWait = false) :=
  runCommands_builtin_short_circuit sampleEnv
    { ShellState.init with
      cmd_buf := [{ cmd_st.blank with args := some ["ls".toList] },
                  { cmd_st.blank with args := some ["echo".toList, ['a']] },
                  { cmd_st.blank with args := some ["ls".toList] }],
      cmd_num := 3 }
    1 "echo".toList [['a']]
    (fun k => by simp only [sampleEnv]; omega) (by decide)
    (fun j hj => by
      have h0 : j = 0 := by omega
      subst h0
      decide)
    rfl (by decide) rfl
    (by
      show 0 < (List.replicate CHILD_MAX (0 : Int)).length
      rw [List.length_replicate]
      decide)

/-! ## The tracked pid set is empty between the descriptors -/

/-- The loop of `runCommands` is the repetition of its body. -/
theorem runLoop_pass (env : Env) (n i : Nat) (st : ShellState) :
    runLoop env (n + 1) i st =
      match runBody env i st with
      | .next st1 => runLoop env n (i + 1) st1
      | .stop r => r := by
  rw [runLoop]
  unfold runBody registerPid
  dsimp only
  repeat (first | rfl | split)

theorem trackedEmpty_cleanup (st : ShellState) : trackedEmpty (cleanup st) :=
  ⟨rfl, rfl⟩

theorem set_zero_replicate (n : Nat) (a : Int) :
    ((List.replicate n (0 : Int)).set 0 a).set 0 0 = List.replicate n 0 := by
  cases n <;> rfl

theorem getD_zero_set_replicate (a : Int) :
    ((List.replicate CHILD_MAX (0 : Int)).set 0 a).getD 0 0 = a := by
  apply getD_set_self
  rw [List.length_replicate]
  decide

theorem builtinHelper_handled_pids {name : CStr} {rest : List CStr} {st st1 : ShellState}
    (h : builtinHelper name rest st = .handled st1) :
    st1.pid_idx = st.pid_idx ∧ st1.pid_buf = st.pid_buf := by
  unfold builtinHelper at h
  split_ifs at h <;> (cases h; exact ⟨rfl, rfl⟩)

theorem builtinHelper_exited_cleanup {name : CStr} {rest : List CStr} {st st1 : ShellState}
    (h : builtinHelper name rest st = .exited st1) : st1 = cleanup st := by
  unfold builtinHelper at h
  split_ifs at h
  cases h
  rfl

/-- With an empty tracked set the pid is registered at slot 0, and the removal loop finds it
there in its first round: it clears the slot, decrements `pid_idx` and breaks. -/
theorem removeLoop_registered (pid : Int) (st : ShellState) (h : trackedEmpty st) :
    (registerPid pid st).pid_buf.getD 0 0 = pid ∧
    removeLoop pid (registerPid pid st) (registerPid pid st).pid_idx 0 =
      some { registerPid pid st with
        pid_buf := (registerPid pid st).pid_buf.set 0 0,
        pid_idx := (registerPid pid st).pid_idx - 1 } ∧
    trackedEmpty { registerPid pid st with
      pid_buf := (registerPid pid st).pid_buf.set 0 0,
      pid_idx := (registerPid pid st).pid_idx - 1 } := by
  obtain ⟨h1, h2⟩ := h
  have hg : (registerPid pid st).pid_buf.getD 0 0 = pid := by
    simp only [registerPid, h1, h2]
    exact getD_zero_set_replicate pid
  refine ⟨hg, ?_, ?_, ?_⟩
  · show removeLoop pid (registerPid pid st) (st.pid_idx + 1) 0 = _
    rw [removeLoop, if_pos hg]
  · simp [registerPid, h1]
  · simp only [registerPid, h1, h2]
    exact set_zero_replicate CHILD_MAX pid

/-- One pass through the loop body keeps the tracked set empty, whether the pass ends at
`i++` or leaves the function, as long as `fork` does not return 0. -/
theorem runBody_trackedEmpty (env : Env) (i : Nat) (st : ShellState)
    (hfork : env.forkRet st.forks ≠ 0) (h : trackedEmpty st) :
    match runBody env i st with
    | .next st1 => trackedEmpty st1
    | .stop r => trackedEmpty r.state := by
  obtain ⟨p, hp⟩ : ∃ p, runBody env i st = p := ⟨_, rfl⟩
  rw [hp]
  unfold runBody at hp
  dsimp only at hp
  split at hp
  · subst hp
    exact h
  · subst hp
    exact h
  · split at hp
    · subst hp
      exact h
    · split at hp
      · rename_i st1 hb
        subst hp
        obtain ⟨e1, e2⟩ := builtinHelper_handled_pids hb
        exact ⟨e1.trans h.1, e2.trans h.2⟩
      · rename_i st1 hb
        subst hp
        show trackedEmpty st1
        rw [builtinHelper_exited_cleanup hb]
        exact trackedEmpty_cleanup st
      · try rw [if_neg hfork] at hp
        split at hp
        · subst hp
          exact h
        · split at hp
          · split at hp
            · subst hp
              exact h
            · subst hp
              exact h
          · obtain ⟨-, hr, hc⟩ := removeLoop_registered (env.forkRet st.forks)
              { st with
                trace := st.trace ++ [.fork i (env.forkRet st.forks)] ++
                  closeEvents (slot env st i),
                forks := st.forks + 1 } h
            rw [hr] at hp
            subst hp
            exact hc

/-- The removal loop is the only part of the loop body that could hang apart from the test
of an empty command name; with an empty tracked set it does not. -/
theorem runBody_hang_empty_name (env : Env) (i : Nat) (st st1 : ShellState)
    (h : trackedEmpty st) (hh : runBody env i st = .stop (.hang st1)) :
    ∃ rest, (slot env st i).args = some ([] :: rest) := by
  unfold runBody at hh
  dsimp only at hh
  split at hh
  · cases hh
  · cases hh
  · rename_i name rest hA
    split at hh
    · rename_i hn
      exact ⟨rest, by rw [hA, hn]⟩
    · exfalso
      split at hh
      · cases hh
      · cases hh
      · split at hh
        · cases hh
        · split at hh
          · cases hh
          · split at hh
            · split at hh <;> cases hh
            · obtain ⟨-, hr, -⟩ := removeLoop_registered (env.forkRet st.forks)
                { st with
                  trace := st.trace ++ [.fork i (env.forkRet st.forks)] ++
                    closeEvents (slot env st i),
                  forks := st.forks + 1 } h
              rw [hr] at hh
              cases hh

theorem loopStates_trackedEmpty (env : Env) (hfork : ∀ k, env.forkRet k ≠ 0) (n : Nat) :
    ∀ (i : Nat) (st : ShellState), trackedEmpty st →
      ∀ s ∈ loopStates env n i st, trackedEmpty s := by
  induction n with
  | zero =>
    intro i st h s hs
    rw [loopStates, List.mem_singleton] at hs
    rw [hs]
    exact h
  | succ n ih =>
    intro i st h s hs
    rw [loopStates, List.mem_cons] at hs
    have hb := runBody_trackedEmpty env i st (hfork st.forks) h
    rcases hs with hs | hs
    · rw [hs]
      exact h
    · cases hp : runBody env i st with
      | next st1 =>
        rw [hp] at hs hb
        exact ih (i + 1) st1 hb s hs
      | stop r =>
        rw [hp] at hs hb
        rw [List.mem_singleton.1 hs]
        exact hb

theorem loopStates_final (env : Env) (n : Nat) :
    ∀ (i : Nat) (st : ShellState),
      (loopStates env n i st).getLast? = some (runLoop env n i st).state := by
  induction n with
  | zero => intro i st; rfl
  | succ n ih =>
    intro i st
    rw [loopStates, runLoop_pass]
    cases hp : runBody env i st with
    | next st1 =>
      dsimp only
      rw [← ih (i + 1) st1]
      cases hl : loopStates env n (i + 1) st1 with
      | nil =>
        have := ih (i + 1) st1
        rw [hl] at this
        cases this
      | cons a l => rfl
    | stop r => rfl

/-- C21. When `runCommands` starts with an empty tracked pid set (`pid_idx = 0` and every
slot of `pid_buf` 0) and `fork` never returns 0 (the shell is the parent), the tracked set
is empty at every loop test: before the first descriptor, after each descriptor that is
processed, and in the state in which the function is left. With an empty set the pid of a
foreground child is registered at slot 0, and the removal loop after the wait finds it there
in its first round, clears the slot, brings `pid_idx` back to 0 and breaks; it never takes
the branch with `j--`, so that a pass of the loop body can only hang on an empty command
name. -/
theorem runCommands_tracked_set_empty (env : Env) (st : ShellState)
    (hfork : ∀ k, env.forkRet k ≠ 0) (hclean : trackedEmpty st) :
    (∀ s ∈ loopStates env st.cmd_num 0 st, trackedEmpty s) ∧
    (loopStates env st.cmd_num 0 st).getLast? = some (runCommands env st).state ∧
    (∀ (s : ShellState) (pid : Int), trackedEmpty s →
      (registerPid pid s).pid_buf.getD 0 0 = pid ∧
      removeLoop pid (registerPid pid s) (registerPid pid s).pid_idx 0 =
        some { registerPid pid s with
          pid_buf := (registerPid pid s).pid_buf.set 0 0,
          pid_idx := (registerPid pid s).pid_idx - 1 } ∧
      trackedEmpty { registerPid pid s with
        pid_buf := (registerPid pid s).pid_buf.set 0 0,
        pid_idx := (registerPid pid s).pid_idx - 1 }) ∧
    (∀ (i : Nat) (s s1 : ShellState), s ∈ loopStates env st.cmd_num 0 st →
      runBody env i s = .stop (.hang s1) → ∃ rest, (slot env s i).args = some ([] :: rest)) := by
  have hall := loopStates_trackedEmpty env hfork st.cmd_num 0 st hclean
  refine ⟨hall, loopStates_final env st.cmd_num 0 st, ?_, ?_⟩
  · intro s pid hs
    exact removeLoop_registered pid s hs
  · intro i s s1 hs hh
    exact runBody_hang_empty_name env i s s1 (hall s hs) hh

/-- The queue of `ls ; sleep 9 & ls` on the initial state: a foreground command, a
background command and a foreground command. -/
theorem runCommands_tracked_set_empty_witness :
    (∀ s ∈ loopStates sampleEnv 3 0
        { ShellState.init with
          cmd_buf := [{ cmd_st.blank with args := some ["ls".toList] },
                      { cmd_st.blank with args := some ["sleep".toList, ['9']], pgid := 1 },
                      { cmd_st.blank with args := some ["ls".toList] }],
          cmd_num := 3 }, trackedEmpty s) ∧
    (loopStates sampleEnv 3 0
        { ShellState.init with
          cmd_buf := [{ cmd_st.blank with args := some ["ls".toList] },
                      { cmd_st.blank with args := some ["sleep".toList, ['9']], pgid := 1 },
                      { cmd_st.blank with args := some ["ls".toList] }],
          cmd_num := 3 }).getLast? =
      some (runCommands sampleEnv
        { ShellState.init with
          cmd_buf := [{ cmd_st.blank with args := some ["ls".toList] },
                      { cmd_st.blank with args := some ["sleep".toList, ['9']], pgid := 1 },
                      { cmd_st.blank with args := some ["ls".toList] }],
          cmd_num := 3 }).state ∧
    (∀ (s : ShellState) (pid : Int), trackedEmpty s →
      (registerPid pid s).pid_buf.getD 0 0 = pid ∧
      removeLoop pid (registerPid pid s) (registerPid pid s).pid_idx 0 =
        some { registerPid pid s with
          pid_buf := (registerPid pid s).pid_buf.set 0 0,
          pid_idx := (registerPid pid s).pid_idx - 1 } ∧
      trackedEmpty { registerPid pid s with
        pid_buf := (registerPid pid s).pid_buf.set 0 0,
        pid_idx := (registerPid pid s).pid_idx - 1 }) ∧
    (∀ (i : Nat) (s s1 : ShellState),
      s ∈ loopStates sampleEnv 3 0
        { ShellState.init with
          cmd_buf := [{ cmd_st.blank with args := some ["ls".toList] },
                      { cmd_st.blank with args := some ["sleep".toList, ['9']], pgid := 1 },
                      { cmd_st.blank with args := some ["ls".toList] }],
          cmd_num := 3 } →
      runBody sampleEnv i s = .stop (.hang s1) →
      ∃ rest, (slot sampleEnv s i).args = some ([] :: rest)) :=
  runCommands_tracked_set_empty sampleEnv
    { ShellState.init with
      cmd_buf := [{ cmd_st.blank with args := some ["ls".toList] },
                  { cmd_st.blank with args := some ["sleep".toList, ['9']], pgid := 1 },
                  { cmd_st.blank with args := some ["ls".toList] }],
      cmd_num := 3 }
    (fun k => by simp only [sampleEnv]; omega) ⟨rfl, rfl⟩

/-! ## A pipeline after a background pipeline -/

/-- C3, at the line `a | b & c | d` when the heap holds stale bytes (`dirtyEnv`): the
segment ` c | d` is parsed into slot 2, which `parsePipe` obtained from `realloc` while it
parsed `a | b` and which nobody has written. Its first stage `c` keeps the stale read end 7,
although it is descriptor 0 of its segment, and `runCommands` closes descriptor 7, which no
call of `pipe` returned. On a zeroed heap (`sampleEnv`) the read end of `c` is 0. -/
theorem parsePipe_first_stage_stale_read_end :
    (parseInput dirtyEnv "a | b & c | d".toList
        { ShellState.init with cmd_buf := [cmd_st.blank] }).queue?.map
      (fun q => q.map (fun c => (c.args, c.pipe_fd_r, c.pipe_fd_w))) =
      some [(some [['a']], 0, 4), (some [['b']], 3, 0), (some [['c']], 7, 6),
            (some [['d']], 5, 0)] ∧
    (parseInput sampleEnv "a | b & c | d".toList
        { ShellState.init with cmd_buf := [cmd_st.blank] }).queue?.map
      (fun q => q.map (fun c => (c.args, c.pipe_fd_r, c.pipe_fd_w))) =
      some [(some [['a']], 0, 4), (some [['b']], 3, 0), (some [['c']], 0, 6),
            (some [['d']], 5, 0)] ∧
    (myshell dirtyEnv (some "a | b & c | d".toList) ShellState.init).state.trace =
      [.pipe 3 4, .pipe 5 6, .fork 0 100, .close 4, .waitpid 100, .fork 1 101, .close 3,
       .print "[1] 101\n", .fork 2 102, .close 6, .close 7, .waitpid 102, .fork 3 103,
       .close 5, .waitpid 103] := by
  refine ⟨?_, ?_, ?_⟩
  · decide
  · decide
  · decide

end MyShell
